import Mathlib

/-!
# Verification of the order-dispatch engine (`src/App.vue`)

This file gives a shallow embedding, in Lean 4, of the dispatch engine
implemented in the `<script setup>` block of `src/App.vue`:

* `Order` and `Bot` mirror the two TypeScript interfaces;
* `AppState` collects the reactive refs (`pendingOrders`, `processingOrders`,
  `completedOrders`, `bots`, `normalOrderCount`, `vipOrderCount`, `botId`);
* `queueOrder`, `addNormalOrder`, `addVipOrder`, `addBot`, `removeBot`,
  `processOrders` and `fireCompletion` (the body of the `setTimeout` callback
  inside `processOrders`) are the operations, written as pure functions on
  `AppState`.

JavaScript object identity is modelled by the `name` field of orders and bots:
the program only ever creates orders named `O-<n>` / `VIP-<n>` and bots named
`Bot-<n>` with counters that never repeat, so names identify objects uniquely
in every reachable state (this is proved below, via injectivity of `Nat.repr`).

The Vue `watch` on `[pendingOrders, bots]` re-runs `processOrders` after every
mutation of those refs; accordingly each externally triggered operation
(`Op`/`step`) is the raw mutation followed by `processOrders`.  The completion
callback calls `processOrders` itself, so `Op.fire` is `fireCompletion` alone.
-/

namespace Dispatch

/-- The `Order` interface of `App.vue`: `name`, `time`, `isVip`,
optional `processedByBot`, optional `processedAt`. -/
structure Order where
  name : String
  time : String
  isVip : Bool
  processedByBot : Option String := none
  processedAt : Option String := none
  deriving DecidableEq, Repr

/-- Bot status enum: `'IDLE' | 'PROCESSING'`. -/
inductive BotStatus where
  | IDLE
  | PROCESSING
  deriving DecidableEq, Repr

/-- The `Bot` interface of `App.vue`: `id`, `name`, `status`. -/
structure Bot where
  id : Nat
  name : String
  status : BotStatus
  deriving DecidableEq, Repr

/-- The reactive state of `App.vue`: the three order lists, the bot pool and
the three counters. -/
structure AppState where
  pendingOrders : List Order
  processingOrders : List Order
  completedOrders : List Order
  bots : List Bot
  normalOrderCount : Nat
  vipOrderCount : Nat
  botId : Nat
  deriving DecidableEq, Repr

/-- The initial state: all refs start as empty arrays and zero counters. -/
def initState : AppState :=
  { pendingOrders := [], processingOrders := [], completedOrders := [],
    bots := [], normalOrderCount := 0, vipOrderCount := 0, botId := 0 }

/-- `createOrder` of `App.vue`: build an order from a name, a VIP flag and the
current wall-clock time (`new Date().toLocaleTimeString()`, an opaque string
supplied by the environment). -/
def createOrder (name : String) (isVip : Bool) (now : String) : Order :=
  { name := name, isVip := isVip, time := now }

/-- `pendingOrders.map(o => o.isVip).lastIndexOf(true)`: the index of the last
VIP order of the list, if any. -/
def lastVipIdx : List Order → Option Nat
  | [] => none
  | o :: os =>
    match lastVipIdx os with
    | some i => some (i + 1)
    | none => if o.isVip then some 0 else none

/-- The insertion policy of `queueOrder`, as a function on the pending list:
a VIP order is spliced in right after the last VIP order (at the front if
there is none), a normal order is pushed at the end. -/
def queueOrderList (q : List Order) (o : Order) : List Order :=
  if o.isVip then
    match lastVipIdx q with
    | some i => q.take (i + 1) ++ o :: q.drop (i + 1)
    | none => o :: q
  else q ++ [o]

/-- `queueOrder` of `App.vue`, lifted to the state. -/
def queueOrder (s : AppState) (o : Order) : AppState :=
  { s with pendingOrders := queueOrderList s.pendingOrders o }

/-- Name of the `n`-th normal order, `` `O-${n}` ``. -/
def normalName (n : Nat) : String := "O-" ++ Nat.repr n

/-- Name of the `n`-th VIP order, `` `VIP-${n}` ``. -/
def vipName (n : Nat) : String := "VIP-" ++ Nat.repr n

/-- Name of the `n`-th bot, `` `Bot-${n}` ``. -/
def botName (n : Nat) : String := "Bot-" ++ Nat.repr n

/-- `addNormalOrder` of `App.vue`: bump the counter and queue a fresh normal
order. -/
def addNormalOrder (s : AppState) (now : String) : AppState :=
  let s := { s with normalOrderCount := s.normalOrderCount + 1 }
  queueOrder s (createOrder (normalName s.normalOrderCount) false now)

/-- `addVipOrder` of `App.vue`: bump the counter and queue a fresh VIP
order. -/
def addVipOrder (s : AppState) (now : String) : AppState :=
  let s := { s with vipOrderCount := s.vipOrderCount + 1 }
  queueOrder s (createOrder (vipName s.vipOrderCount) true now)

/-- `addBot` of `App.vue`: bump the id counter and push a fresh idle bot. -/
def addBot (s : AppState) : AppState :=
  let s := { s with botId := s.botId + 1 }
  { s with bots := s.bots ++ [{ id := s.botId, name := botName s.botId,
                                status := .IDLE }] }

/-- `removeBot` of `App.vue`: if the pool is empty do nothing; otherwise take
the most recently added bot; if it is `PROCESSING`, find the order it was
processing, clear that order's `processedByBot`, requeue it with `queueOrder`
and drop it from `processingOrders`; finally filter the bot out of the
pool. -/
def removeBot (s : AppState) : AppState :=
  match s.bots.getLast? with
  | none => s
  | some latestBot =>
    let s1 :=
      if latestBot.status = .PROCESSING then
        match s.processingOrders.find? (fun o =>
            o.processedByBot == some latestBot.name) with
        | some o =>
          let o' : Order := { o with processedByBot := none }
          let s' := { s with pendingOrders := queueOrderList s.pendingOrders o' }
          { s' with processingOrders :=
              s'.processingOrders.filter (fun x => x.name ≠ o.name) }
        | none => s
      else s
    { s1 with bots := s1.bots.filter (fun b => b.id ≠ latestBot.id) }

/-- One iteration step of the `while` loop of `processOrders`: shift the head
of `pendingOrders` and the head of the local `idleBots` array, mark the bot
`PROCESSING` (the bot object is shared with `bots`, so the update hits the
pool), stamp the order with the bot's name and push it onto
`processingOrders`. -/
def processGo : List Bot → AppState → AppState
  | b :: bs, s =>
    match s.pendingOrders with
    | o :: os =>
      processGo bs
        { s with
          pendingOrders := os
          processingOrders :=
            s.processingOrders ++ [{ o with processedByBot := some b.name }]
          bots := s.bots.map (fun b2 =>
            if b2.id = b.id then { b2 with status := .PROCESSING } else b2) }
    | [] => s
  | [], s => s

/-- `processOrders` of `App.vue` (without the timer side effect): snapshot the
idle bots and run the assignment loop until pending orders or idle bots run
out. -/
def processOrders (s : AppState) : AppState :=
  processGo (s.bots.filter (fun b => b.status == .IDLE)) s

/-- `processingOrders.indexOf(order)` followed by `splice(idx, 1)`: locate the
first order with the given name and return it together with the list with
that occurrence removed. -/
def extractOrder : List Order → String → Option (Order × List Order)
  | [], _ => none
  | o :: os, n =>
    if o.name = n then some (o, os)
    else
      match extractOrder os n with
      | some (x, rest) => some (x, o :: rest)
      | none => none

/-- The body of the `setTimeout` callback scheduled by `processOrders` for a
captured `(order, bot)` pair, fired at wall-clock time `now`: if the order is
no longer in `processingOrders`, or its `processedByBot` is not the captured
bot's name, return without touching any state; otherwise remove it from
`processingOrders`, stamp `processedAt`, push it onto `completedOrders`, set
the captured bot back to `IDLE`, and run `processOrders` again. -/
def fireCompletion (s : AppState) (orderName botName' now : String) : AppState :=
  match extractOrder s.processingOrders orderName with
  | none => s
  | some (o, rest) =>
    if o.processedByBot ≠ some botName' then s
    else
      processOrders
        { s with
          processingOrders := rest
          completedOrders := s.completedOrders ++ [{ o with processedAt := some now }]
          bots := s.bots.map (fun b =>
            if b.name = botName' then { b with status := .IDLE } else b) }

/-- The externally triggered events: the four button handlers and the firing
of a scheduled completion callback.  Wall-clock readings are inputs from the
environment. -/
inductive Op where
  | addNormal (now : String)
  | addVip (now : String)
  | addBot
  | removeBot
  | fire (orderName botName' now : String)
  deriving DecidableEq, Repr

/-- One event: the raw mutation followed by the `watch`-triggered
`processOrders` (the completion callback invokes `processOrders` itself). -/
def step (s : AppState) : Op → AppState
  | .addNormal now => processOrders (addNormalOrder s now)
  | .addVip now => processOrders (addVipOrder s now)
  | .addBot => processOrders (addBot s)
  | .removeBot => processOrders (removeBot s)
  | .fire o b now => fireCompletion s o b now

/-- Run a sequence of events from the initial state. -/
def run (ops : List Op) : AppState :=
  ops.foldl step initState

/-! ### Derived definitions used to state and prove the claims -/

/-- Decimal digit characters of `n`, most significant first: the reference
semantics of `Nat.toDigitsCore` at base 10 (used to prove that the
`` `O-${n}` ``-style names are pairwise distinct). -/
def natChars (n : Nat) : List Char :=
  if n < 10 then [Nat.digitChar n]
  else natChars (n / 10) ++ [Nat.digitChar (n % 10)]
  decreasing_by exact Nat.div_lt_self (by omega) (by omega)

/-- The update applied to an order when a bot picks it up:
`order.processedByBot = bot.name`. -/
def assignOrder (o : Order) (b : Bot) : Order := { o with processedByBot := some b.name }

/-- Mark as `PROCESSING` every bot of the pool whose id occurs in `l`:
the cumulative effect on `bots` of the mutations done by the `while` loop of
`processOrders` for the assigned bots `l`. -/
def markBusy (l : List Bot) (bots : List Bot) : List Bot :=
  bots.map (fun b2 =>
    if l.any (fun b => b.id == b2.id) then { b2 with status := .PROCESSING } else b2)

/-- The `bots.value.filter(b => b.status === 'IDLE')` snapshot taken by
`processOrders`. -/
def idleBots (s : AppState) : List Bot :=
  s.bots.filter (fun b => b.status == .IDLE)

/-- All orders ever created, i.e. the concatenation of the three views. -/
def allOrders (s : AppState) : List Order :=
  s.pendingOrders ++ s.processingOrders ++ s.completedOrders

/-- The names of all orders ever created. -/
def allNames (s : AppState) : List String :=
  (allOrders s).map (fun o => o.name)

/-- The names the order counters have handed out so far:
`O-1 … O-nC` and `VIP-1 … VIP-vC`. -/
def canonicalNames (nC vC : Nat) : List String :=
  ((List.range' 1 nC).map normalName) ++ ((List.range' 1 vC).map vipName)

/-- The identity-relevant part of an order (its fields other than
`processedByBot` / `processedAt`, which the engine mutates). -/
def orderKey (o : Order) : String × Bool × String := (o.name, o.isVip, o.time)

/-- Priority segregation between two orders: a VIP order never sits behind a
normal order. -/
def vipFirst (a b : Order) : Prop := b.isVip = true → a.isVip = true

/-- The state invariant maintained by every operation of the engine. -/
structure Inv (s : AppState) : Prop where
  bot_ids_nodup : (s.bots.map (fun b => b.id)).Nodup
  bot_facts : ∀ b ∈ s.bots, 1 ≤ b.id ∧ b.id ≤ s.botId ∧ b.name = botName b.id
  order_shape : ∀ o ∈ allOrders s,
      (o.isVip = false ∧ ∃ i, 1 ≤ i ∧ i ≤ s.normalOrderCount ∧ o.name = normalName i) ∨
      (o.isVip = true ∧ ∃ i, 1 ≤ i ∧ i ≤ s.vipOrderCount ∧ o.name = vipName i)
  names_nodup : (allNames s).Nodup
  normal_complete : ∀ i, 1 ≤ i → i ≤ s.normalOrderCount → normalName i ∈ allNames s
  vip_complete : ∀ i, 1 ≤ i → i ≤ s.vipOrderCount → vipName i ∈ allNames s
  pending_clear : ∀ o ∈ s.pendingOrders, o.processedByBot = none
  completed_assigned : ∀ o ∈ s.completedOrders, o.processedByBot.isSome
  processing_assigned : ∀ o ∈ s.processingOrders,
      ∃ b ∈ s.bots, b.status = .PROCESSING ∧ o.processedByBot = some b.name
  bot_count : ∀ b ∈ s.bots,
      s.processingOrders.countP (fun o => o.processedByBot == some b.name)
        = if b.status = .PROCESSING then 1 else 0
  pending_sorted : s.pendingOrders.Pairwise vipFirst

/-- Decides whether a sequence of events, run from `s`, never removes a bot
that is busy (every `removeBot` happens while the youngest bot is idle or the
pool is empty). -/
def safeOps : AppState → List Op → Bool
  | _, [] => true
  | s, op :: rest =>
    (match op with
     | .removeBot =>
       match s.bots.getLast? with
       | some b => b.status == .IDLE
       | none => true
     | _ => true) && safeOps (step s op) rest

/-- The pending queue lists the VIP orders, by increasing submission index,
strictly before the normal orders, by increasing submission index. -/
def submissionOrdered (s : AppState) : Prop :=
  ∃ lv ln : List Nat, lv.Pairwise (· < ·) ∧ ln.Pairwise (· < ·) ∧
    s.pendingOrders.map (fun o => o.name) = lv.map vipName ++ ln.map normalName

/-- Structured form of `submissionOrdered`, carrying the split of the pending
queue into its VIP prefix and normal suffix; this is the inductive invariant
for traces with no busy-bot removal. -/
def SubOrder (s : AppState) : Prop :=
  ∃ lv ln : List Nat, ∃ PV PN : List Order,
    s.pendingOrders = PV ++ PN ∧
    lv.Pairwise (· < ·) ∧ ln.Pairwise (· < ·) ∧
    (∀ i ∈ lv, 1 ≤ i ∧ i ≤ s.vipOrderCount) ∧
    (∀ i ∈ ln, 1 ≤ i ∧ i ≤ s.normalOrderCount) ∧
    (∀ o ∈ PV, o.isVip = true) ∧ (∀ o ∈ PN, o.isVip = false) ∧
    PV.map (fun o => o.name) = lv.map vipName ∧
    PN.map (fun o => o.name) = ln.map normalName

/-- Sample normal order, used by witnesses. -/
def sampleNormal : Order := { name := "O-1", time := "t0", isVip := false }

/-- Sample VIP order, used by witnesses. -/
def sampleVip : Order := { name := "VIP-1", time := "t0", isVip := true }

/-- Event sequence reaching a state with a completed order whose
`processedByBot` still names an existing bot. -/
def opsC4 : List Op := [Op.addBot, Op.addNormal "t1", Op.fire "O-1" "Bot-1" "t2"]

/-- Event sequence on which the literal C2 submission-order property fails:
`VIP-1` is assigned, `VIP-2` queued, then the busy bot is removed and `VIP-1`
is requeued behind `VIP-2`. -/
def opsC2 : List Op := [Op.addBot, Op.addVip "t1", Op.addVip "t2", Op.removeBot]

/-- Event sequence with one busy bot processing `O-1`. -/
def opsBusy1 : List Op := [Op.addBot, Op.addNormal "t1"]

/-! ### Distinctness of generated names -/

theorem natChars_ne_nil (n : Nat) : natChars n ≠ [] := by
  rw [natChars]
  split
  · simp
  · simp

theorem natChars_small {n : Nat} (h : n < 10) : natChars n = [Nat.digitChar n] := by
  rw [natChars, if_pos h]

theorem natChars_large {n : Nat} (h : ¬ n < 10) :
    natChars n = natChars (n / 10) ++ [Nat.digitChar (n % 10)] := by
  conv_lhs => rw [natChars]
  rw [if_neg h]

theorem toDigitsCore_eq (f : Nat) : ∀ n ds, n < f →
    Nat.toDigitsCore 10 f n ds = natChars n ++ ds := by
  induction f with
  | zero => intro n ds h; omega
  | succ f ih =>
    intro n ds h
    simp only [Nat.toDigitsCore]
    by_cases h10 : n < 10
    · have : n / 10 = 0 := Nat.div_eq_of_lt h10
      rw [if_pos this, natChars_small h10, Nat.mod_eq_of_lt h10]
      simp
    · have hne : n / 10 ≠ 0 := by
        intro h0
        have := Nat.div_eq_of_lt (by omega : n < 10)
        omega
      rw [if_neg hne, ih (n / 10) _ (by
        have h1 : n / 10 < n := Nat.div_lt_self (by omega) (by omega)
        omega)]
      rw [natChars_large h10]
      simp

theorem repr_eq_natChars (n : Nat) : Nat.repr n = (natChars n).asString := by
  rw [Nat.repr, Nat.toDigits, toDigitsCore_eq (n + 1) n [] (by omega)]
  simp

theorem digitChar_inj_lt :
    ∀ a < 10, ∀ b < 10, Nat.digitChar a = Nat.digitChar b → a = b := by
  decide

theorem natChars_inj : ∀ m n : Nat, natChars m = natChars n → m = n := by
  intro m
  induction m using Nat.strong_induction_on with
  | _ m ih =>
    intro n h
    by_cases hm : m < 10 <;> by_cases hn : n < 10
    · rw [natChars_small hm, natChars_small hn] at h
      exact digitChar_inj_lt m hm n hn (List.singleton_injective h)
    · rw [natChars_small hm, natChars_large hn] at h
      cases hc : natChars (n / 10) with
      | nil => exact absurd hc (natChars_ne_nil _)
      | cons a l => rw [hc] at h; simp at h
    · rw [natChars_large hm, natChars_small hn] at h
      cases hc : natChars (m / 10) with
      | nil => exact absurd hc (natChars_ne_nil _)
      | cons a l => rw [hc] at h; simp at h
    · rw [natChars_large hm, natChars_large hn] at h
      have hlen : (natChars (m / 10)).length = (natChars (n / 10)).length := by
        have := congrArg List.length h
        simp at this
        omega
      obtain ⟨h1, h2⟩ := List.append_inj h hlen
      have hdiv : m / 10 = n / 10 :=
        ih (m / 10) (Nat.div_lt_self (by omega) (by omega)) (n / 10) h1
      have hmod : m % 10 = n % 10 :=
        digitChar_inj_lt (m % 10) (Nat.mod_lt _ (by omega)) (n % 10)
          (Nat.mod_lt _ (by omega)) (List.singleton_injective h2)
      omega

theorem repr_injective : ∀ m n : Nat, Nat.repr m = Nat.repr n → m = n := by
  intro m n h
  rw [repr_eq_natChars, repr_eq_natChars] at h
  apply natChars_inj
  have := congrArg String.data h
  simpa [List.asString] using this

theorem normalName_inj {m n : Nat} (h : normalName m = normalName n) : m = n := by
  apply repr_injective
  have := congrArg String.data h
  simp only [normalName, String.data_append] at this
  apply String.ext
  simpa using this

theorem vipName_inj {m n : Nat} (h : vipName m = vipName n) : m = n := by
  apply repr_injective
  have := congrArg String.data h
  simp only [vipName, String.data_append] at this
  apply String.ext
  simpa using this

theorem botName_inj {m n : Nat} (h : botName m = botName n) : m = n := by
  apply repr_injective
  have := congrArg String.data h
  simp only [botName, String.data_append] at this
  apply String.ext
  simpa using this

theorem normalName_ne_vipName (m n : Nat) : normalName m ≠ vipName n := by
  intro h
  have := congrArg (fun s => s.data.head?) h
  simp [normalName, vipName, String.data_append] at this

/-! ### The insertion policy (claim C1) -/

theorem lastVipIdx_none {q : List Order} (h : lastVipIdx q = none) :
    ∀ o ∈ q, o.isVip = false := by
  induction q with
  | nil => simp
  | cons x xs ih =>
    rw [lastVipIdx] at h
    intro o ho
    cases hx : lastVipIdx xs with
    | some i => rw [hx] at h; simp at h
    | none =>
      rw [hx] at h
      by_cases hv : x.isVip
      · rw [if_pos hv] at h; simp at h
      · rcases List.mem_cons.mp ho with rfl | hmem
        · simpa using hv
        · exact ih hx o hmem

theorem lastVipIdx_decomp {q : List Order} {i : Nat} (h : lastVipIdx q = some i) :
    ∃ A x B, q = A ++ x :: B ∧ A.length = i ∧ x.isVip = true ∧
      ∀ y ∈ B, y.isVip = false := by
  induction q generalizing i with
  | nil => simp [lastVipIdx] at h
  | cons o os ih =>
    rw [lastVipIdx] at h
    cases hx : lastVipIdx os with
    | some j =>
      rw [hx] at h
      obtain ⟨A, x, B, hq, hlen, hvip, hB⟩ := ih hx
      have hi : i = j + 1 := by simpa using h.symm
      refine ⟨o :: A, x, B, by simp [hq], ?_, hvip, hB⟩
      simp [hlen, hi]
    | none =>
      rw [hx] at h
      by_cases hv : o.isVip
      · rw [if_pos hv] at h
        have hi : i = 0 := by simpa using h.symm
        exact ⟨[], o, os, rfl, by simp [hi], by simpa using hv, lastVipIdx_none hx⟩
      · rw [if_neg hv] at h
        simp at h

/-- Helper form of the insertion policy for a VIP order: the queue splits as
`A ++ B` with the new order going between them, `B` free of VIP orders, and
`A` empty exactly when the queue has no VIP order (otherwise ending in the
last VIP order). -/
theorem queueOrderList_vip {q : List Order} {o : Order} (h : o.isVip = true) :
    ∃ A B, q = A ++ B ∧ queueOrderList q o = A ++ o :: B ∧
      (∀ y ∈ B, y.isVip = false) ∧
      (A = [] → ∀ y ∈ q, y.isVip = false) ∧
      (∀ a, A.getLast? = some a → a.isVip = true) := by
  rw [queueOrderList, if_pos (by simpa using h)]
  cases hlv : lastVipIdx q with
  | none =>
    exact ⟨[], q, rfl, rfl, lastVipIdx_none hlv, fun _ => lastVipIdx_none hlv,
      by simp⟩
  | some i =>
    obtain ⟨A, x, B, hq, hlen, hvip, hB⟩ := lastVipIdx_decomp hlv
    have hq' : q = (A ++ [x]) ++ B := by simp [hq]
    have hlen' : (A ++ [x]).length = i + 1 := by simp [hlen]
    refine ⟨A ++ [x], B, hq', ?_, hB, ?_, ?_⟩
    · rw [hq']
      show List.take (i + 1) ((A ++ [x]) ++ B) ++ o :: List.drop (i + 1) ((A ++ [x]) ++ B)
        = (A ++ [x]) ++ o :: B
      rw [List.take_left' hlen', List.drop_left' hlen']
    · intro hnil; simp at hnil
    · intro a ha
      rw [List.getLast?_concat] at ha
      cases ha
      exact hvip

theorem queueOrderList_normal {q : List Order} {o : Order} (h : o.isVip = false) :
    queueOrderList q o = q ++ [o] := by
  rw [queueOrderList, if_neg (by simp [h])]

/-- C1.  The insertion policy appends a NORMAL job at the end of the pending
queue; it inserts a HIGH job immediately after the last HIGH job of the queue
(at position 0 when no HIGH job is present), and in both cases all previously
queued jobs keep their relative order. -/
theorem C1_insertion_policy (q : List Order) (o : Order) :
    (o.isVip = false → queueOrderList q o = q ++ [o]) ∧
    (o.isVip = true → ∃ A B, q = A ++ B ∧
      queueOrderList q o = A ++ o :: B ∧
      (∀ y ∈ B, y.isVip = false) ∧
      (A = [] → ∀ y ∈ q, y.isVip = false) ∧
      (∀ a, A.getLast? = some a → a.isVip = true)) :=
  ⟨fun h => queueOrderList_normal h, fun h => queueOrderList_vip h⟩

/-- Witness for C1 at concrete inputs: appending a normal order to an empty
queue, and decomposing the insertion of a VIP order into a queue holding one
normal order. -/
theorem C1_insertion_policy_witness :
    queueOrderList [] sampleNormal = [sampleNormal] ∧
    (∃ A B, ([sampleNormal] : List Order) = A ++ B ∧
      queueOrderList [sampleNormal] sampleVip = A ++ sampleVip :: B ∧
      (∀ y ∈ B, y.isVip = false) ∧
      (A = [] → ∀ y ∈ ([sampleNormal] : List Order), y.isVip = false) ∧
      (∀ a, A.getLast? = some a → a.isVip = true)) :=
  ⟨(C1_insertion_policy [] sampleNormal).1 rfl,
   (C1_insertion_policy [sampleNormal] sampleVip).2 rfl⟩

/-! ### Empty-pool removal (claim C9) -/

/-- C9.  When no bot exists, `removeBot` returns without touching anything:
the whole state (order lists, bot pool, counters) is unchanged and no error
occurs. -/
theorem C9_remove_empty_noop (s : AppState) (h : s.bots = []) : removeBot s = s := by
  rw [removeBot, h]
  rfl

/-- Witness for C9: removing a bot in the initial state is a no-op. -/
theorem C9_remove_empty_noop_witness : removeBot initState = initState :=
  C9_remove_empty_noop initState rfl

/-! ### Splice and search helpers -/

theorem extractOrder_eq_none {l : List Order} {n : String}
    (h : ∀ x ∈ l, x.name ≠ n) : extractOrder l n = none := by
  induction l with
  | nil => rfl
  | cons o os ih =>
    rw [extractOrder, if_neg (h o (by simp)), ih (fun x hx => h x (by simp [hx]))]

theorem extractOrder_some {l : List Order} {n : String} {o : Order}
    {rest : List Order} (h : extractOrder l n = some (o, rest)) :
    ∃ l₁ l₂, l = l₁ ++ o :: l₂ ∧ rest = l₁ ++ l₂ ∧ o.name = n ∧
      ∀ x ∈ l₁, x.name ≠ n := by
  induction l generalizing rest with
  | nil => cases h
  | cons x xs ih =>
    rw [extractOrder] at h
    by_cases hx : x.name = n
    · rw [if_pos hx] at h
      obtain ⟨rfl, rfl⟩ : x = o ∧ xs = rest := by
        constructor <;> [exact congrArg Prod.fst (Option.some_injective _ h);
          exact congrArg Prod.snd (Option.some_injective _ h)]
      exact ⟨[], xs, rfl, rfl, hx, by simp⟩
    · rw [if_neg hx] at h
      cases hrec : extractOrder xs n with
      | none => rw [hrec] at h; cases h
      | some p =>
        obtain ⟨y, r⟩ := p
        rw [hrec] at h
        obtain ⟨rfl, rfl⟩ : y = o ∧ x :: r = rest := by
          constructor <;> [exact congrArg Prod.fst (Option.some_injective _ h);
            exact congrArg Prod.snd (Option.some_injective _ h)]
        obtain ⟨l₁, l₂, rfl, rfl, hn, hl₁⟩ := ih hrec
        exact ⟨x :: l₁, l₂, rfl, rfl, hn, by
          intro z hz
          rcases List.mem_cons.mp hz with rfl | hz2
          · exact hx
          · exact hl₁ z hz2⟩

theorem extractOrder_append {l₁ l₂ : List Order} {o : Order}
    (h : ∀ x ∈ l₁, x.name ≠ o.name) :
    extractOrder (l₁ ++ o :: l₂) o.name = some (o, l₁ ++ l₂) := by
  induction l₁ with
  | nil => rw [List.nil_append, extractOrder, if_pos rfl]; rfl
  | cons x xs ih =>
    rw [List.cons_append, extractOrder, if_neg (h x (by simp)),
      ih (fun z hz => h z (by simp [hz]))]
    rfl

theorem find?_decomp {p : Order → Bool} {l : List Order} {o : Order}
    (h : l.find? p = some o) :
    p o = true ∧ ∃ l₁ l₂, l = l₁ ++ o :: l₂ ∧ ∀ x ∈ l₁, p x = false := by
  induction l with
  | nil => cases h
  | cons x xs ih =>
    cases hp : p x with
    | true =>
      rw [List.find?_cons_of_pos _ hp] at h
      cases h
      exact ⟨hp, [], xs, rfl, by simp⟩
    | false =>
      rw [List.find?_cons_of_neg _ (by simp [hp])] at h
      obtain ⟨hpo, l₁, l₂, rfl, hl₁⟩ := ih h
      exact ⟨hpo, x :: l₁, l₂, rfl, by
        intro z hz
        rcases List.mem_cons.mp hz with rfl | hz2
        · exact hp
        · exact hl₁ z hz2⟩

theorem find?_append_first {p : Order → Bool} {l₁ l₂ : List Order} {o : Order}
    (h₁ : ∀ x ∈ l₁, p x = false) (h₂ : p o = true) :
    (l₁ ++ o :: l₂).find? p = some o := by
  induction l₁ with
  | nil => rw [List.nil_append, List.find?_cons_of_pos _ h₂]
  | cons x xs ih =>
    rw [List.cons_append, List.find?_cons_of_neg _ (by simp [h₁ x (by simp)]),
      ih (fun z hz => h₁ z (by simp [hz]))]

/-! ### The assignment loop (claim C3) -/

theorem markBusy_nil (bots : List Bot) : markBusy [] bots = bots := by
  simp [markBusy]

theorem markBusy_cons (x : Bot) (l : List Bot) (bots : List Bot) :
    markBusy (x :: l) bots
      = markBusy l (bots.map (fun b2 =>
          if b2.id = x.id then { b2 with status := .PROCESSING } else b2)) := by
  induction bots with
  | nil => rfl
  | cons b2 bs ih =>
    simp only [markBusy, List.map_cons] at ih ⊢
    rw [ih]
    congr 1
    by_cases hid : b2.id = x.id
    · simp [hid]
    · have hxb : ¬ x.id = b2.id := fun hh => hid hh.symm
      simp [hid, hxb]

theorem processGo_eq : ∀ (idle : List Bot) (s : AppState),
    processGo idle s = { s with
      pendingOrders := s.pendingOrders.drop idle.length
      processingOrders :=
        s.processingOrders ++ List.zipWith assignOrder s.pendingOrders idle
      bots := markBusy (idle.take s.pendingOrders.length) s.bots } := by
  intro idle
  induction idle with
  | nil =>
    intro s
    simp [processGo, markBusy_nil]
  | cons b bs ih =>
    rintro ⟨p, pr, co, bo, c1, c2, c3⟩
    cases p with
    | nil => simp [processGo, markBusy_nil]
    | cons o os =>
      simp only [processGo]
      rw [ih]
      simp [markBusy_cons, assignOrder, List.append_assoc]

theorem processGo_pending_nil (l : List Bot) (s : AppState)
    (h : s.pendingOrders = []) : processGo l s = s := by
  cases l with
  | nil => rfl
  | cons b bs => simp [processGo, h]

theorem processOrders_eq (s : AppState) :
    processOrders s = { s with
      pendingOrders := s.pendingOrders.drop (idleBots s).length
      processingOrders :=
        s.processingOrders ++ List.zipWith assignOrder s.pendingOrders (idleBots s)
      bots := markBusy ((idleBots s).take s.pendingOrders.length) s.bots } := by
  rw [processOrders, processGo_eq]
  rfl

theorem processOrders_fix (s : AppState) :
    (processOrders s).pendingOrders = [] ∨ idleBots (processOrders s) = [] := by
  by_cases hle : s.pendingOrders.length ≤ (idleBots s).length
  · left
    rw [processOrders_eq]
    exact List.drop_eq_nil_of_le hle
  · right
    push_neg at hle
    rw [processOrders_eq]
    show ((markBusy ((idleBots s).take s.pendingOrders.length) s.bots).filter
      (fun b => b.status == BotStatus.IDLE)) = []
    rw [List.take_of_length_le (by omega)]
    rw [List.filter_eq_nil_iff]
    intro x hx
    rw [markBusy] at hx
    obtain ⟨b2, hb2, rfl⟩ := List.mem_map.mp hx
    by_cases hany : (idleBots s).any (fun b => b.id == b2.id)
    · simp [hany]
    · rw [if_neg hany]
      intro hb2idle
      apply hany
      refine List.any_eq_true.mpr ⟨b2, ?_, by simp⟩
      rw [idleBots, List.mem_filter]
      exact ⟨hb2, hb2idle⟩

theorem processOrders_idem (s : AppState) :
    processOrders (processOrders s) = processOrders s := by
  rcases processOrders_fix s with h | h
  · exact processGo_pending_nil _ _ h
  · rw [processOrders]
    have : (processOrders s).bots.filter (fun b => b.status == BotStatus.IDLE) = [] := h
    rw [this]
    rfl

/-- C3.  One run of the assignment routine pairs the pending orders, in queue
order, with the idle bots, in pool order (`zipWith assignOrder`), marking each
paired order as processed by its bot and each paired bot as `PROCESSING`, and
dropping the paired prefix from the pending queue — so no order or bot is
considered twice in a pass.  Afterwards no pending order or no idle bot
remains, and running the routine again changes nothing. -/
theorem C3_assignment_routine (s : AppState) :
    processOrders s = { s with
      pendingOrders := s.pendingOrders.drop (idleBots s).length
      processingOrders :=
        s.processingOrders ++ List.zipWith assignOrder s.pendingOrders (idleBots s)
      bots := markBusy ((idleBots s).take s.pendingOrders.length) s.bots } ∧
    ((processOrders s).pendingOrders = [] ∨ idleBots (processOrders s) = []) ∧
    processOrders (processOrders s) = processOrders s :=
  ⟨processOrders_eq s, processOrders_fix s, processOrders_idem s⟩

/-! ### The completion callback (claims C4 and C7) -/

/-- C4 counterexample.  After `opsC4` the order `O-1` is completed and its
`processedByBot` still names `Bot-1`, so the job's assigned worker is exactly
the worker of the scheduled pair; the claim then demands that firing the
callback set a (new) completion timestamp — but the code leaves the whole
state untouched and records no `t9` timestamp anywhere. -/
theorem C4_counterexample :
    (run opsC4).completedOrders.map (fun o => o.processedByBot) = [some "Bot-1"] ∧
    fireCompletion (run opsC4) "O-1" "Bot-1" "t9" = run opsC4 ∧
    (fireCompletion (run opsC4) "O-1" "Bot-1" "t9").completedOrders.map
      (fun o => o.processedAt) = [some "t2"] :=
  ⟨rfl, rfl, rfl⟩

/-- C4 (amended).  A completion callback for a pair whose order no longer
lists that bot in `processedByBot` changes no state at all; when the order is
still in the processing list with that bot's name, the callback removes it
from processing, stamps `processedAt`, appends it to the completed list, sets
the bot back to `IDLE` and re-runs the assignment routine.  (When the order
has already left the processing list — e.g. it was already completed — the
callback is also a no-op, even if `processedByBot` still names the bot.) -/
theorem C4_completion_callback (s : AppState) (oname bname now : String) :
    ((∀ o ∈ s.processingOrders, o.name = oname → o.processedByBot ≠ some bname) →
      fireCompletion s oname bname now = s) ∧
    (∀ l₁ o l₂, s.processingOrders = l₁ ++ o :: l₂ →
      (∀ x ∈ l₁, x.name ≠ oname) → o.name = oname →
      o.processedByBot = some bname →
      fireCompletion s oname bname now = processOrders
        { s with
          processingOrders := l₁ ++ l₂
          completedOrders := s.completedOrders ++ [{ o with processedAt := some now }]
          bots := s.bots.map (fun b =>
            if b.name = bname then { b with status := .IDLE } else b) }) := by
  constructor
  · intro hno
    cases hex : extractOrder s.processingOrders oname with
    | none => simp only [fireCompletion, hex]
    | some p =>
      obtain ⟨o, rest⟩ := p
      obtain ⟨l₁, l₂, hl, -, hn, -⟩ := extractOrder_some hex
      have hpb : o.processedByBot ≠ some bname := hno o (by rw [hl]; simp) hn
      simp only [fireCompletion, hex]
      rw [if_pos hpb]
  · intro l₁ o l₂ hproc hl₁ honame hpb
    have hex : extractOrder s.processingOrders oname = some (o, l₁ ++ l₂) := by
      rw [hproc, ← honame]
      exact extractOrder_append (fun x hx => honame ▸ hl₁ x hx)
    simp only [fireCompletion, hex]
    rw [if_neg (by simp [hpb])]

/-- Witness for C4 (amended): in the state with `Bot-1` busy on `O-1`, firing
a callback for the stale pair `(O-1, Bot-9)` changes nothing, and firing the
callback for `(O-1, Bot-1)` completes the order as described. -/
theorem C4_completion_callback_witness :
    fireCompletion (run opsBusy1) "O-1" "Bot-9" "t2" = run opsBusy1 ∧
    fireCompletion (run opsBusy1) "O-1" "Bot-1" "t2" = processOrders
      { run opsBusy1 with
        processingOrders := [] ++ []
        completedOrders := (run opsBusy1).completedOrders ++
          [{ name := "O-1", time := "t1", isVip := false,
             processedByBot := some "Bot-1", processedAt := some "t2" }]
        bots := (run opsBusy1).bots.map (fun b =>
          if b.name = "Bot-1" then { b with status := .IDLE } else b) } :=
  ⟨(C4_completion_callback (run opsBusy1) "O-1" "Bot-9" "t2").1 (by decide),
   (C4_completion_callback (run opsBusy1) "O-1" "Bot-1" "t2").2 []
     { name := "O-1", time := "t1", isVip := false, processedByBot := some "Bot-1" }
     [] rfl (by simp) rfl rfl⟩

theorem zipWith_assignOrder_names : ∀ (p : List Order) (il : List Bot),
    (List.zipWith assignOrder p il).map (fun o => o.name)
      = (p.take il.length).map (fun o => o.name) := by
  intro p
  induction p with
  | nil => intro il; simp
  | cons o os ih =>
    intro il
    cases il with
    | nil => simp
    | cons b bs => simp [assignOrder, ih]

/-- C7.  Firing the completion callback of a pair twice in a row produces the
same state as firing it once: the second firing finds the order gone from the
processing list (it was completed) or finds its `processedByBot` unchanged
and distinct from the bot, and returns without touching anything.  The
hypothesis — order names are pairwise distinct — holds in every reachable
state (see the C10 theorem). -/
theorem C7_double_fire (s : AppState) (oname bname t₁ t₂ : String)
    (hnodup : (allNames s).Nodup) :
    fireCompletion (fireCompletion s oname bname t₁) oname bname t₂
      = fireCompletion s oname bname t₁ := by
  cases hex : extractOrder s.processingOrders oname with
  | none =>
    have h1 : fireCompletion s oname bname t₁ = s := by
      simp only [fireCompletion, hex]
    rw [h1]
    simp only [fireCompletion, hex]
  | some p =>
    obtain ⟨o, rest⟩ := p
    by_cases hpb : o.processedByBot = some bname
    · obtain ⟨l₁, l₂, hl, hrest, hn, -⟩ := extractOrder_some hex
      have hnames : (s.pendingOrders.map (fun o => o.name)).Nodup ∧
          (s.processingOrders.map (fun o => o.name)).Nodup ∧
          List.Disjoint (s.pendingOrders.map (fun o => o.name))
            (s.processingOrders.map (fun o => o.name)) := by
        have h := hnodup
        rw [allNames, allOrders, List.map_append, List.map_append] at h
        have hab := h.of_append_left
        exact ⟨hab.of_append_left, hab.of_append_right,
          List.disjoint_of_nodup_append hab⟩
      have honotmem : oname ∉ (l₁ ++ l₂).map (fun o => o.name) := by
        have h2 := hnames.2.1
        rw [hl, List.map_append, List.map_cons] at h2
        have h3 := List.nodup_middle.mp h2
        rw [← List.map_append] at h3
        rw [← hn]
        exact (List.nodup_cons.mp h3).1
      have honpend : oname ∉ s.pendingOrders.map (fun o => o.name) := by
        intro hmem
        apply hnames.2.2 hmem
        rw [hl, List.map_append, List.map_cons, hn]
        simp
      have h1 : fireCompletion s oname bname t₁ = processOrders
          { s with
            processingOrders := rest
            completedOrders := s.completedOrders ++ [{ o with processedAt := some t₁ }]
            bots := s.bots.map (fun b =>
              if b.name = bname then { b with status := .IDLE } else b) } := by
        simp only [fireCompletion, hex]
        rw [if_neg (by simp [hpb])]
      rw [h1]
      have hnone : extractOrder (processOrders
          { s with
            processingOrders := rest
            completedOrders := s.completedOrders ++ [{ o with processedAt := some t₁ }]
            bots := s.bots.map (fun b =>
              if b.name = bname then { b with status := .IDLE } else b) }).processingOrders
          oname = none := by
        apply extractOrder_eq_none
        intro x hx
        rw [processOrders_eq] at hx
        simp only [] at hx
        rcases List.mem_append.mp hx with hx1 | hx2
        · intro hxn
          apply honotmem
          rw [← hrest] at honotmem ⊢
          exact List.mem_map.mpr ⟨x, hx1, hxn⟩
        · intro hxn
          apply honpend
          have : x.name ∈ (List.zipWith assignOrder s.pendingOrders _).map
              (fun o => o.name) := List.mem_map.mpr ⟨x, hx2, rfl⟩
          rw [zipWith_assignOrder_names] at this
          obtain ⟨y, hy, hyn⟩ := List.mem_map.mp this
          exact List.mem_map.mpr ⟨y, List.mem_of_mem_take hy, by rw [hyn, hxn]⟩
      simp only [fireCompletion, hnone]
    · have h1 : fireCompletion s oname bname t₁ = s := by
        simp only [fireCompletion, hex]
        rw [if_pos hpb]
      rw [h1]
      simp only [fireCompletion, hex]
      rw [if_pos hpb]

/-- Witness for C7: double-firing the `(O-1, Bot-1)` callback with `Bot-1`
busy on `O-1` equals firing it once. -/
theorem C7_double_fire_witness :
    fireCompletion (fireCompletion (run opsBusy1) "O-1" "Bot-1" "t2") "O-1" "Bot-1" "t3"
      = fireCompletion (run opsBusy1) "O-1" "Bot-1" "t2" :=
  C7_double_fire (run opsBusy1) "O-1" "Bot-1" "t2" "t3" (by decide)

/-! ### Worker removal (claim C5) -/

/-- C5.  With a non-empty pool, `removeBot` targets the most recently added
bot; if that bot is idle it is simply filtered out of the pool; if it is
processing an order, that order's `processedByBot` is cleared, the order is
reinserted into the pending queue through the `queueOrder` priority policy,
removed from the processing list, and then the bot is filtered out. -/
theorem C5_remove_worker (s : AppState) (bs : List Bot) (w : Bot)
    (hbots : s.bots = bs ++ [w]) (hids : ∀ b ∈ bs, b.id ≠ w.id) :
    (w.status = .IDLE → removeBot s = { s with bots := bs }) ∧
    (w.status = .PROCESSING →
      ∀ l₁ o l₂, s.processingOrders = l₁ ++ o :: l₂ →
        (∀ x ∈ l₁, x.processedByBot ≠ some w.name) →
        o.processedByBot = some w.name →
        (∀ x ∈ l₁ ++ l₂, x.name ≠ o.name) →
        removeBot s = { s with
          pendingOrders := queueOrderList s.pendingOrders { o with processedByBot := none }
          processingOrders := l₁ ++ l₂
          bots := bs }) := by
  have hlast : s.bots.getLast? = some w := by
    rw [hbots]
    exact List.getLast?_concat _
  have hfilter : s.bots.filter (fun b => b.id ≠ w.id) = bs := by
    rw [hbots, List.filter_append]
    have h1 : bs.filter (fun b => b.id ≠ w.id) = bs :=
      List.filter_eq_self.mpr (fun b hb => by simpa using hids b hb)
    have h2 : [w].filter (fun b => b.id ≠ w.id) = [] := by simp
    rw [h1, h2, List.append_nil]
  constructor
  · intro hw
    simp only [removeBot, hlast]
    rw [if_neg (by rw [hw]; exact fun hc => nomatch hc)]
    rw [hfilter]
  · intro hw l₁ o l₂ hproc hl₁ hpb hnames
    have hfind : s.processingOrders.find?
        (fun x => x.processedByBot == some w.name) = some o := by
      rw [hproc]
      exact find?_append_first (fun x hx => by simpa using hl₁ x hx) (by simp [hpb])
    simp only [removeBot, hlast]
    rw [if_pos hw, hfind]
    simp only []
    have hpfilter : s.processingOrders.filter (fun x => x.name ≠ o.name) = l₁ ++ l₂ := by
      rw [hproc, List.filter_append]
      have h1 : l₁.filter (fun x => x.name ≠ o.name) = l₁ :=
        List.filter_eq_self.mpr (fun x hx => by simpa using hnames x (by simp [hx]))
      have h2 : (o :: l₂).filter (fun x => x.name ≠ o.name) = l₂ := by
        rw [List.filter_cons_of_neg (by simp)]
        exact List.filter_eq_self.mpr
          (fun x hx => by simpa using hnames x (by simp [hx]))
      rw [h1, h2]
    rw [hpfilter, hfilter]

/-- Witness for C5: removing the only (idle) bot, and removing the only bot
while it is busy on `O-1`, which requeues the order. -/
theorem C5_remove_worker_witness :
    removeBot (run [Op.addBot]) = { run [Op.addBot] with bots := [] } ∧
    removeBot (run opsBusy1) = { run opsBusy1 with
      pendingOrders := queueOrderList (run opsBusy1).pendingOrders
        { name := "O-1", time := "t1", isVip := false,
          processedByBot := none, processedAt := none }
      processingOrders := [] ++ []
      bots := [] } :=
  ⟨(C5_remove_worker (run [Op.addBot]) []
      { id := 1, name := "Bot-1", status := .IDLE } rfl (by simp)).1 rfl,
   (C5_remove_worker (run opsBusy1) []
      { id := 1, name := "Bot-1", status := .PROCESSING } rfl (by simp)).2 rfl
      [] { name := "O-1", time := "t1", isVip := false, processedByBot := some "Bot-1" }
      [] rfl (by simp) rfl (by simp)⟩

/-! ### Permutation and shape helpers for the state invariant -/

theorem queueOrderList_perm (q : List Order) (o : Order) :
    List.Perm (queueOrderList q o) (q ++ [o]) := by
  by_cases h : o.isVip = true
  · obtain ⟨A, B, hq, hres, -, -, -⟩ := queueOrderList_vip h
    rw [hres, hq]
    rw [← Multiset.coe_eq_coe]
    simp only [← Multiset.coe_add, ← Multiset.cons_coe, ← Multiset.singleton_add,
      Multiset.coe_nil]
    abel
  · rw [queueOrderList_normal (by simpa using h)]

theorem all_vip_of_sorted_last : ∀ {A : List Order}, A.Pairwise vipFirst →
    (∀ a, A.getLast? = some a → a.isVip = true) → ∀ a ∈ A, a.isVip = true := by
  intro A
  induction A with
  | nil => intro _ _ a ha; cases ha
  | cons x xs ih =>
    intro hp hl a ha
    cases hxs : xs with
    | nil =>
      rcases List.mem_cons.mp ha with rfl | h2
      · exact hl a (by rw [hxs]; rfl)
      · rw [hxs] at h2; cases h2
    | cons y ys =>
      rw [hxs] at hp hl ha ih
      have htail : ∀ a ∈ y :: ys, a.isVip = true := by
        refine ih (List.Pairwise.sublist (by simp) hp) ?_
        intro b hb
        exact hl b (by rw [List.getLast?_cons_cons]; exact hb)
      rcases List.mem_cons.mp ha with rfl | h2
      · have hy : y.isVip = true := htail y (by simp)
        exact (List.pairwise_cons.mp hp).1 y (by simp) hy
      · exact htail a h2

theorem queueOrderList_sorted {q : List Order} {o : Order}
    (h : q.Pairwise vipFirst) : (queueOrderList q o).Pairwise vipFirst := by
  by_cases hv : o.isVip = true
  · obtain ⟨A, B, hq, hres, hB, -, hlast⟩ := queueOrderList_vip (q := q) hv
    rw [hres]
    rw [hq, List.pairwise_append] at h
    obtain ⟨hA, hB2, hcross⟩ := h
    have hallA : ∀ a ∈ A, a.isVip = true := all_vip_of_sorted_last hA hlast
    rw [List.pairwise_append]
    refine ⟨hA, ?_, ?_⟩
    · rw [List.pairwise_cons]
      exact ⟨fun y _ => fun _ => hv, hB2⟩
    · intro a ha y hy
      rcases List.mem_cons.mp hy with rfl | h2
      · exact fun _ => hallA a ha
      · exact hcross a ha y h2
  · rw [queueOrderList_normal (by simpa using hv), List.pairwise_append]
    refine ⟨h, by simp, ?_⟩
    intro a ha y hy
    rw [List.mem_singleton.mp hy]
    intro hcontra
    exact absurd hcontra hv

theorem mem_zipWith_assignOrder : ∀ {p : List Order} {il : List Bot} {x : Order},
    x ∈ List.zipWith assignOrder p il →
    ∃ o ∈ p, ∃ b ∈ il, x = assignOrder o b := by
  intro p
  induction p with
  | nil => intro il x hx; simp at hx
  | cons o os ih =>
    intro il x hx
    cases il with
    | nil => simp at hx
    | cons b bs =>
      rw [List.zipWith_cons_cons] at hx
      rcases List.mem_cons.mp hx with rfl | h2
      · exact ⟨o, by simp, b, by simp, rfl⟩
      · obtain ⟨o', ho', b', hb', hx'⟩ := ih h2
        exact ⟨o', by simp [ho'], b', by simp [hb'], hx'⟩

theorem fresh_normal_not_mem (s : AppState) (h : Inv s) :
    normalName (s.normalOrderCount + 1) ∉ allNames s := by
  intro hmem
  rw [allNames] at hmem
  obtain ⟨o, ho, hon⟩ := List.mem_map.mp hmem
  rcases h.order_shape o ho with ⟨-, i, -, hle, hname⟩ | ⟨-, i, -, hle, hname⟩
  · have : i = s.normalOrderCount + 1 := normalName_inj (hname.symm.trans hon)
    omega
  · exact normalName_ne_vipName _ _ (hon.symm.trans hname)

theorem fresh_vip_not_mem (s : AppState) (h : Inv s) :
    vipName (s.vipOrderCount + 1) ∉ allNames s := by
  intro hmem
  rw [allNames] at hmem
  obtain ⟨o, ho, hon⟩ := List.mem_map.mp hmem
  rcases h.order_shape o ho with ⟨-, i, -, hle, hname⟩ | ⟨-, i, -, hle, hname⟩
  · exact normalName_ne_vipName _ _ (hname.symm.trans hon)
  · have : i = s.vipOrderCount + 1 := vipName_inj (hname.symm.trans hon)
    omega

theorem addNormalOrder_eq (s : AppState) (t : String) :
    addNormalOrder s t = { s with
      normalOrderCount := s.normalOrderCount + 1
      pendingOrders := s.pendingOrders ++
        [createOrder (normalName (s.normalOrderCount + 1)) false t] } := by
  simp only [addNormalOrder, queueOrder]
  rw [queueOrderList_normal rfl]

theorem addVipOrder_eq (s : AppState) (t : String) :
    addVipOrder s t = { s with
      vipOrderCount := s.vipOrderCount + 1
      pendingOrders := queueOrderList s.pendingOrders
        (createOrder (vipName (s.vipOrderCount + 1)) true t) } := by
  simp only [addVipOrder, queueOrder]

theorem addBot_eq (s : AppState) :
    addBot s = { s with
      botId := s.botId + 1
      bots := s.bots ++ [{ id := s.botId + 1, name := botName (s.botId + 1),
                           status := .IDLE }] } := by
  simp only [addBot]

theorem allNames_queued (s : AppState) (x : Order) (nC vC : Nat) :
    List.Perm
      (allNames { s with
        normalOrderCount := nC
        vipOrderCount := vC
        pendingOrders := queueOrderList s.pendingOrders x })
      (allNames s ++ [x.name]) := by
  simp only [allNames, allOrders, List.map_append]
  have hq := (queueOrderList_perm s.pendingOrders x).map (fun o => o.name)
  simp only [List.map_append, List.map_cons, List.map_nil] at hq
  refine List.Perm.trans ((hq.append_right _).append_right _) ?_
  rw [← Multiset.coe_eq_coe]
  simp only [← Multiset.coe_add, ← Multiset.cons_coe, ← Multiset.singleton_add,
    Multiset.coe_nil]
  abel

theorem allNames_processOrders (s : AppState) :
    List.Perm (allNames (processOrders s)) (allNames s) := by
  rw [processOrders_eq]
  simp only [allNames, allOrders, List.map_append, zipWith_assignOrder_names]
  conv_rhs =>
    rw [← List.take_append_drop (idleBots s).length s.pendingOrders,
      List.map_append]
  rw [← Multiset.coe_eq_coe]
  simp only [← Multiset.coe_add, ← Multiset.cons_coe, ← Multiset.singleton_add,
    Multiset.coe_nil]
  abel

theorem mem_allOrders_processOrders {s : AppState} {x : Order}
    (hx : x ∈ allOrders (processOrders s)) :
    ∃ o ∈ allOrders s, x.name = o.name ∧ x.isVip = o.isVip := by
  rw [processOrders_eq] at hx
  simp only [allOrders, List.mem_append] at hx
  rcases hx with (h1 | h2 | h3) | h4
  · exact ⟨x, by simp [allOrders, List.mem_append,
      List.mem_of_mem_drop h1], rfl, rfl⟩
  · exact ⟨x, by simp [allOrders, List.mem_append, h2], rfl, rfl⟩
  · obtain ⟨o, ho, b, hb, rfl⟩ := mem_zipWith_assignOrder h3
    exact ⟨o, by simp [allOrders, List.mem_append, ho], rfl, rfl⟩
  · exact ⟨x, by simp [allOrders, List.mem_append, h4], rfl, rfl⟩

/-! ### Preservation of the invariant -/

theorem inv_initState : Inv initState := by
  constructor
  · simp [initState]
  · simp [initState]
  · simp [allOrders, initState]
  · simp [allNames, allOrders, initState]
  · intro i h1 h2
    simp [initState] at h2
    omega
  · intro i h1 h2
    simp [initState] at h2
    omega
  · simp [initState]
  · simp [initState]
  · simp [initState]
  · simp [initState]
  · simp [initState]

theorem inv_addNormalOrder (s : AppState) (t : String) (h : Inv s) :
    Inv (addNormalOrder s t) := by
  rw [addNormalOrder_eq]
  have hperm : List.Perm
      (allNames { s with
        normalOrderCount := s.normalOrderCount + 1
        pendingOrders := s.pendingOrders ++
          [createOrder (normalName (s.normalOrderCount + 1)) false t] })
      (allNames s ++ [normalName (s.normalOrderCount + 1)]) := by
    have hq := allNames_queued s
      (createOrder (normalName (s.normalOrderCount + 1)) false t)
      (s.normalOrderCount + 1) s.vipOrderCount
    rw [queueOrderList_normal rfl] at hq
    exact hq
  constructor
  · exact h.bot_ids_nodup
  · exact h.bot_facts
  · intro o ho
    have hcases : o ∈ allOrders s ∨
        o = createOrder (normalName (s.normalOrderCount + 1)) false t := by
      simp only [allOrders, List.mem_append] at ho
      rcases ho with ((hp | hx) | hproc) | hcomp
      · exact Or.inl (by simp [allOrders, List.mem_append, hp])
      · exact Or.inr (List.mem_singleton.mp hx)
      · exact Or.inl (by simp [allOrders, List.mem_append, hproc])
      · exact Or.inl (by simp [allOrders, List.mem_append, hcomp])
    rcases hcases with hold | hnew
    · rcases h.order_shape o hold with ⟨hv, i, h1, h2, h3⟩ | ⟨hv, i, h1, h2, h3⟩
      · exact Or.inl ⟨hv, i, h1,
          by show i ≤ s.normalOrderCount + 1; omega, h3⟩
      · exact Or.inr ⟨hv, i, h1, h2, h3⟩
    · rw [hnew]
      exact Or.inl ⟨rfl, s.normalOrderCount + 1, by omega,
        by show s.normalOrderCount + 1 ≤ s.normalOrderCount + 1; omega, rfl⟩
  · rw [hperm.nodup_iff, List.nodup_append]
    refine ⟨h.names_nodup, by simp, ?_⟩
    intro a ha hb
    rw [List.mem_singleton.mp hb] at ha
    exact fresh_normal_not_mem s h ha
  · intro i h1 h2
    have h2' : i ≤ s.normalOrderCount + 1 := h2
    rw [hperm.mem_iff, List.mem_append]
    rcases Nat.lt_or_ge i (s.normalOrderCount + 1) with hlt | hge
    · exact Or.inl (h.normal_complete i h1 (by omega))
    · have hi : i = s.normalOrderCount + 1 := by omega
      rw [hi]
      simp
  · intro i h1 h2
    have h2' : i ≤ s.vipOrderCount := h2
    rw [hperm.mem_iff, List.mem_append]
    exact Or.inl (h.vip_complete i h1 h2')
  · intro o ho
    rcases List.mem_append.mp ho with hold | hnew
    · exact h.pending_clear o hold
    · rw [List.mem_singleton.mp hnew]
      rfl
  · exact h.completed_assigned
  · exact h.processing_assigned
  · exact h.bot_count
  · show (s.pendingOrders ++
      [createOrder (normalName (s.normalOrderCount + 1)) false t]).Pairwise vipFirst
    rw [← queueOrderList_normal (rfl :
      (createOrder (normalName (s.normalOrderCount + 1)) false t).isVip = false)]
    exact queueOrderList_sorted h.pending_sorted

theorem inv_addVipOrder (s : AppState) (t : String) (h : Inv s) :
    Inv (addVipOrder s t) := by
  rw [addVipOrder_eq]
  have hperm : List.Perm
      (allNames { s with
        vipOrderCount := s.vipOrderCount + 1
        pendingOrders := queueOrderList s.pendingOrders
          (createOrder (vipName (s.vipOrderCount + 1)) true t) })
      (allNames s ++ [vipName (s.vipOrderCount + 1)]) :=
    allNames_queued s (createOrder (vipName (s.vipOrderCount + 1)) true t)
      s.normalOrderCount (s.vipOrderCount + 1)
  have hpmem : ∀ o ∈ queueOrderList s.pendingOrders
      (createOrder (vipName (s.vipOrderCount + 1)) true t),
      o ∈ s.pendingOrders ∨
        o = createOrder (vipName (s.vipOrderCount + 1)) true t := by
    intro o ho
    have := (queueOrderList_perm s.pendingOrders
      (createOrder (vipName (s.vipOrderCount + 1)) true t)).mem_iff.mp ho
    rcases List.mem_append.mp this with h1 | h2
    · exact Or.inl h1
    · exact Or.inr (List.mem_singleton.mp h2)
  constructor
  · exact h.bot_ids_nodup
  · exact h.bot_facts
  · intro o ho
    simp only [allOrders, List.mem_append] at ho
    have hcases : o ∈ allOrders s ∨
        o = createOrder (vipName (s.vipOrderCount + 1)) true t := by
      rcases ho with (ho1 | ho2) | ho3
      · rcases hpmem o ho1 with h1 | h2
        · exact Or.inl (by simp [allOrders, List.mem_append, h1])
        · exact Or.inr h2
      · exact Or.inl (by simp [allOrders, List.mem_append, ho2])
      · exact Or.inl (by simp [allOrders, List.mem_append, ho3])
    rcases hcases with hold | hnew
    · rcases h.order_shape o hold with ⟨hv, i, h1, h2, h3⟩ | ⟨hv, i, h1, h2, h3⟩
      · exact Or.inl ⟨hv, i, h1, h2, h3⟩
      · exact Or.inr ⟨hv, i, h1, by show i ≤ s.vipOrderCount + 1; omega, h3⟩
    · rw [hnew]
      exact Or.inr ⟨rfl, s.vipOrderCount + 1, by omega,
        by show s.vipOrderCount + 1 ≤ s.vipOrderCount + 1; omega, rfl⟩
  · rw [hperm.nodup_iff, List.nodup_append]
    refine ⟨h.names_nodup, by simp, ?_⟩
    intro a ha hb
    rw [List.mem_singleton.mp hb] at ha
    exact fresh_vip_not_mem s h ha
  · intro i h1 h2
    have h2' : i ≤ s.normalOrderCount := h2
    rw [hperm.mem_iff, List.mem_append]
    exact Or.inl (h.normal_complete i h1 h2')
  · intro i h1 h2
    have h2' : i ≤ s.vipOrderCount + 1 := h2
    rw [hperm.mem_iff, List.mem_append]
    rcases Nat.lt_or_ge i (s.vipOrderCount + 1) with hlt | hge
    · exact Or.inl (h.vip_complete i h1 (by omega))
    · have hi : i = s.vipOrderCount + 1 := by omega
      rw [hi]
      simp
  · intro o ho
    rcases hpmem o ho with hold | hnew
    · exact h.pending_clear o hold
    · rw [hnew]
      rfl
  · exact h.completed_assigned
  · exact h.processing_assigned
  · exact h.bot_count
  · show (queueOrderList s.pendingOrders
      (createOrder (vipName (s.vipOrderCount + 1)) true t)).Pairwise vipFirst
    exact queueOrderList_sorted h.pending_sorted

theorem inv_addBot (s : AppState) (h : Inv s) : Inv (addBot s) := by
  rw [addBot_eq]
  constructor
  · rw [List.map_append, List.nodup_append]
    refine ⟨h.bot_ids_nodup, by simp, ?_⟩
    intro a ha hb
    simp only [List.map_cons, List.map_nil, List.mem_singleton] at hb
    obtain ⟨b, hbmem, hbid⟩ := List.mem_map.mp ha
    have := (h.bot_facts b hbmem).2.1
    omega
  · intro b hb
    rcases List.mem_append.mp hb with hold | hnew
    · obtain ⟨h1, h2, h3⟩ := h.bot_facts b hold
      exact ⟨h1, by show b.id ≤ s.botId + 1; omega, h3⟩
    · rw [List.mem_singleton.mp hnew]
      exact ⟨by show 1 ≤ s.botId + 1; omega,
        by show s.botId + 1 ≤ s.botId + 1; omega, rfl⟩
  · exact h.order_shape
  · exact h.names_nodup
  · exact h.normal_complete
  · exact h.vip_complete
  · exact h.pending_clear
  · exact h.completed_assigned
  · intro o ho
    obtain ⟨b, hb, h1, h2⟩ := h.processing_assigned o ho
    exact ⟨b, List.mem_append.mpr (Or.inl hb), h1, h2⟩
  · intro b hb
    rcases List.mem_append.mp hb with hold | hnew
    · exact h.bot_count b hold
    · rw [List.mem_singleton.mp hnew]
      rw [if_neg (by exact fun hc => nomatch hc)]
      rw [List.countP_eq_zero]
      intro o ho
      obtain ⟨b', hb', hst', hpb'⟩ := h.processing_assigned o ho
      have hb'name := (h.bot_facts b' hb').2.2
      have hb'le := (h.bot_facts b' hb').2.1
      simp only [hpb', beq_iff_eq, Option.some_inj]
      intro hcontra
      rw [hb'name] at hcontra
      have := botName_inj hcontra
      omega
  · exact h.pending_sorted

theorem markBusy_map_id : ∀ (l : List Bot) (bots : List Bot),
    (markBusy l bots).map (fun b => b.id) = bots.map (fun b => b.id) := by
  intro l bots
  induction bots with
  | nil => rfl
  | cons b bs ih =>
    simp only [markBusy, List.map_cons] at ih ⊢
    rw [ih]
    congr 1
    split <;> rfl

theorem mem_markBusy {l bots : List Bot} {x : Bot} (h : x ∈ markBusy l bots) :
    ∃ b ∈ bots, x.id = b.id ∧ x.name = b.name ∧
      (x = b ∨ x = { b with status := .PROCESSING }) := by
  rw [markBusy] at h
  obtain ⟨b, hb, rfl⟩ := List.mem_map.mp h
  refine ⟨b, hb, ?_, ?_, ?_⟩
  · split <;> rfl
  · split <;> rfl
  · split
    · exact Or.inr rfl
    · exact Or.inl rfl

theorem mem_markBusy_cases {l bots : List Bot} {x : Bot} (h : x ∈ markBusy l bots) :
    ∃ b ∈ bots,
      (l.any (fun c => c.id == b.id) = true ∧ x = { b with status := .PROCESSING }) ∨
      ((¬ l.any (fun c => c.id == b.id) = true) ∧ x = b) := by
  rw [markBusy] at h
  obtain ⟨b, hb, rfl⟩ := List.mem_map.mp h
  by_cases hc : l.any (fun c => c.id == b.id) = true
  · exact ⟨b, hb, Or.inl ⟨hc, by rw [if_pos hc]⟩⟩
  · exact ⟨b, hb, Or.inr ⟨hc, by rw [if_neg hc]⟩⟩

theorem markBusy_mem_of_mem {l bots : List Bot} {b : Bot} (hb : b ∈ bots) :
    ∃ x ∈ markBusy l bots, x.id = b.id ∧ x.name = b.name ∧
      (x.status = .PROCESSING ∨ x = b) := by
  rw [markBusy]
  refine ⟨_, List.mem_map.mpr ⟨b, hb, rfl⟩, ?_, ?_, ?_⟩
  · split <;> rfl
  · split <;> rfl
  · split
    · exact Or.inl rfl
    · exact Or.inr rfl

theorem zipWith_assignOrder_take : ∀ (p : List Order) (il : List Bot),
    List.zipWith assignOrder p il
      = List.zipWith assignOrder p (il.take p.length) := by
  intro p
  induction p with
  | nil => intro il; simp
  | cons o os ih =>
    intro il
    cases il with
    | nil => simp
    | cons b bs =>
      rw [List.zipWith_cons_cons, List.length_cons, List.take_succ_cons,
        List.zipWith_cons_cons, ih bs]

theorem zipWith_assignOrder_pbs : ∀ (p : List Order) (il : List Bot),
    (List.zipWith assignOrder p il).map (fun o => o.processedByBot)
      = (il.take p.length).map (fun b => some b.name) := by
  intro p
  induction p with
  | nil => intro il; simp
  | cons o os ih =>
    intro il
    cases il with
    | nil => simp
    | cons b bs => simp [assignOrder, ih]

theorem countP_zipWith_assignOrder : ∀ (p : List Order) (il : List Bot)
    (nm : String),
    (List.zipWith assignOrder p il).countP (fun o => o.processedByBot == some nm)
      = (il.take p.length).countP (fun c => some c.name == some nm) := by
  intro p
  induction p with
  | nil => intro il nm; simp
  | cons o os ih =>
    intro il nm
    cases il with
    | nil => simp
    | cons b bs =>
      rw [List.zipWith_cons_cons, List.length_cons, List.take_succ_cons,
        List.countP_cons, List.countP_cons, ih]
      rfl

theorem countP_eq_one_of_unique {α : Type} {P : α → Bool} :
    ∀ {l : List α} {a : α}, l.Nodup → a ∈ l → P a = true →
    (∀ c ∈ l, P c = true → c = a) → l.countP P = 1 := by
  intro l
  induction l with
  | nil => intro a _ ha; cases ha
  | cons x xs ih =>
    intro a hnd ha hPa huniq
    rcases List.mem_cons.mp ha with rfl | hmem
    · have hzero : xs.countP P = 0 := by
        rw [List.countP_eq_zero]
        intro c hc hPc
        have hca : c = a := huniq c (List.mem_cons_of_mem _ hc) hPc
        rw [hca] at hc
        exact absurd hc (List.nodup_cons.mp hnd).1
      rw [List.countP_cons_of_pos _ _ hPa, hzero]
    · have hPx : ¬ P x = true := by
        intro hPx
        have hxa : x = a := huniq x (List.mem_cons_self _ _) hPx
        rw [hxa] at hnd
        exact (List.nodup_cons.mp hnd).1 hmem
      rw [List.countP_cons_of_neg _ _ hPx]
      exact ih (List.nodup_cons.mp hnd).2 hmem hPa
        (fun c hc hPc => huniq c (List.mem_cons_of_mem _ hc) hPc)

theorem bots_name_inj (s : AppState) (h : Inv s) :
    ∀ b ∈ s.bots, ∀ c ∈ s.bots, b.name = c.name → b = c := by
  intro b hb c hc hname
  have hbn := (h.bot_facts b hb).2.2
  have hcn := (h.bot_facts c hc).2.2
  have hid : b.id = c.id := botName_inj ((hbn.symm.trans hname).trans hcn)
  exact List.inj_on_of_nodup_map h.bot_ids_nodup hb hc hid

theorem mem_idleBots {s : AppState} {b : Bot} (h : b ∈ idleBots s) :
    b ∈ s.bots ∧ b.status = .IDLE := by
  rw [idleBots] at h
  have := List.mem_filter.mp h
  exact ⟨this.1, by simpa using this.2⟩

theorem inv_processOrders (s : AppState) (h : Inv s) : Inv (processOrders s) := by
  have hbotsnodup : s.bots.Nodup := List.Nodup.of_map _ h.bot_ids_nodup
  have htake_sub : ∀ b ∈ (idleBots s).take s.pendingOrders.length, b ∈ s.bots ∧
      b.status = .IDLE := fun b hb => mem_idleBots (List.mem_of_mem_take hb)
  have hnames := (allNames_processOrders s).nodup_iff.mpr h.names_nodup
  have hncomp : ∀ i, 1 ≤ i → i ≤ s.normalOrderCount →
      normalName i ∈ allNames (processOrders s) := fun i h1 h2 =>
    (allNames_processOrders s).mem_iff.mpr (h.normal_complete i h1 h2)
  have hvcomp : ∀ i, 1 ≤ i → i ≤ s.vipOrderCount →
      vipName i ∈ allNames (processOrders s) := fun i h1 h2 =>
    (allNames_processOrders s).mem_iff.mpr (h.vip_complete i h1 h2)
  have hshape : ∀ o ∈ allOrders (processOrders s),
      (o.isVip = false ∧ ∃ i, 1 ≤ i ∧ i ≤ s.normalOrderCount ∧
        o.name = normalName i) ∨
      (o.isVip = true ∧ ∃ i, 1 ≤ i ∧ i ≤ s.vipOrderCount ∧
        o.name = vipName i) := by
    intro o ho
    obtain ⟨o0, ho0, hn, hv⟩ := mem_allOrders_processOrders ho
    rcases h.order_shape o0 ho0 with ⟨hvip, i, h1, h2, h3⟩ | ⟨hvip, i, h1, h2, h3⟩
    · exact Or.inl ⟨hv.trans hvip, i, h1, h2, hn.trans h3⟩
    · exact Or.inr ⟨hv.trans hvip, i, h1, h2, hn.trans h3⟩
  rw [allNames] at hnames hncomp hvcomp
  rw [processOrders_eq] at hnames hncomp hvcomp hshape ⊢
  constructor
  · show ((markBusy ((idleBots s).take s.pendingOrders.length) s.bots).map
      (fun b => b.id)).Nodup
    rw [markBusy_map_id]
    exact h.bot_ids_nodup
  · intro b hb
    obtain ⟨b0, hb0, hid, hname, -⟩ := mem_markBusy hb
    obtain ⟨h1, h2, h3⟩ := h.bot_facts b0 hb0
    exact ⟨by omega, by show b.id ≤ s.botId; omega, by rw [hname, hid]; exact h3⟩
  · exact hshape
  · exact hnames
  · exact hncomp
  · exact hvcomp
  · intro o ho
    exact h.pending_clear o (List.mem_of_mem_drop ho)
  · intro o ho
    exact h.completed_assigned o ho
  · intro o ho
    show ∃ b ∈ markBusy ((idleBots s).take s.pendingOrders.length) s.bots,
      b.status = BotStatus.PROCESSING ∧ o.processedByBot = some b.name
    rcases List.mem_append.mp ho with hold | hnew
    · obtain ⟨b, hb, hst, hpb⟩ := h.processing_assigned o hold
      obtain ⟨x, hx, -, hxname, hxst⟩ := markBusy_mem_of_mem
        (l := (idleBots s).take s.pendingOrders.length) hb
      refine ⟨x, hx, ?_, by rw [hxname]; exact hpb⟩
      rcases hxst with h1 | h1
      · exact h1
      · rw [h1]
        exact hst
    · rw [zipWith_assignOrder_take] at hnew
      obtain ⟨o0, ho0, b, hb, rfl⟩ := mem_zipWith_assignOrder hnew
      have hbbots := (htake_sub b hb).1
      refine ⟨{ b with status := .PROCESSING }, ?_, rfl, rfl⟩
      rw [markBusy]
      refine List.mem_map.mpr ⟨b, hbbots, ?_⟩
      rw [if_pos]
      exact List.any_eq_true.mpr ⟨b, hb, by simp⟩
  · intro b hb
    show (s.processingOrders ++
        List.zipWith assignOrder s.pendingOrders (idleBots s)).countP
        (fun o => o.processedByBot == some b.name)
      = if b.status = BotStatus.PROCESSING then 1 else 0
    have htakenodup : ((idleBots s).take s.pendingOrders.length).Nodup :=
      ((List.take_sublist _ _).trans (List.filter_sublist _)).nodup hbotsnodup
    rw [List.countP_append]
    rw [countP_zipWith_assignOrder s.pendingOrders (idleBots s) b.name]
    obtain ⟨b0, hb0, hsplit⟩ := mem_markBusy_cases hb
    rcases hsplit with ⟨hany, rfl⟩ | ⟨hany, heqb⟩
    · obtain ⟨c, hc, hcid⟩ := List.any_eq_true.mp hany
      have hcb0 : c = b0 := List.inj_on_of_nodup_map h.bot_ids_nodup
        (htake_sub c hc).1 hb0 (by simpa using hcid)
      rw [hcb0] at hc
      have hidle : b0.status = .IDLE := (htake_sub b0 hc).2
      have hold : s.processingOrders.countP
          (fun o => o.processedByBot == some b0.name) = 0 := by
        have hcount := h.bot_count b0 hb0
        rw [hidle] at hcount
        simpa using hcount
      have hone : ((idleBots s).take s.pendingOrders.length).countP
          (fun c => some c.name == some b0.name) = 1 := by
        refine countP_eq_one_of_unique htakenodup hc (by simp) ?_
        intro c2 hc2 hP
        exact bots_name_inj s h c2 (htake_sub c2 hc2).1 b0 hb0 (by simpa using hP)
      show s.processingOrders.countP
          (fun o => o.processedByBot == some b0.name) +
        ((idleBots s).take s.pendingOrders.length).countP
          (fun c => some c.name == some b0.name) = 1
      rw [hold, hone]
    · rw [heqb]
      have hnotmem : b0 ∉ (idleBots s).take s.pendingOrders.length := by
        intro hmem
        exact hany (List.any_eq_true.mpr ⟨b0, hmem, by simp⟩)
      have hzero : ((idleBots s).take s.pendingOrders.length).countP
          (fun c => some c.name == some b0.name) = 0 := by
        rw [List.countP_eq_zero]
        intro c hc hP
        have : c = b0 := bots_name_inj s h c (htake_sub c hc).1 b0 hb0
          (by simpa using hP)
        rw [this] at hc
        exact hnotmem hc
      rw [hzero, Nat.add_zero]
      exact h.bot_count b0 hb0
  · show (s.pendingOrders.drop (idleBots s).length).Pairwise vipFirst
    exact List.Pairwise.sublist (List.drop_sublist _ _) h.pending_sorted

theorem processing_names_nodup (s : AppState) (h : Inv s) :
    (s.processingOrders.map (fun o => o.name)).Nodup := by
  have hn := h.names_nodup
  rw [allNames, allOrders, List.map_append, List.map_append] at hn
  exact hn.of_append_left.of_append_right

/-- Removing the pool's youngest bot `w` alone (no order touched) preserves
the invariant provided no processing order references `w`. -/
theorem inv_filter_bots (s : AppState) (h : Inv s) (w : Bot) (hwmem : w ∈ s.bots)
    (hno : ∀ o ∈ s.processingOrders, o.processedByBot ≠ some w.name) :
    Inv { s with bots := s.bots.filter (fun b => b.id ≠ w.id) } := by
  constructor
  · show (((s.bots.filter (fun b => b.id ≠ w.id)).map (fun b => b.id))).Nodup
    exact List.Nodup.sublist (List.Sublist.map _ (List.filter_sublist _))
      h.bot_ids_nodup
  · intro b hb
    exact h.bot_facts b (List.mem_of_mem_filter hb)
  · exact h.order_shape
  · exact h.names_nodup
  · exact h.normal_complete
  · exact h.vip_complete
  · exact h.pending_clear
  · exact h.completed_assigned
  · intro o ho
    obtain ⟨b, hb, hst, hpb⟩ := h.processing_assigned o ho
    have hbname : b.name ≠ w.name := by
      intro hcontra
      exact hno o ho (by rw [hpb, hcontra])
    have hbid : b.id ≠ w.id := by
      intro hcontra
      exact hbname (congrArg Bot.name
        (List.inj_on_of_nodup_map h.bot_ids_nodup hb hwmem hcontra))
    exact ⟨b, List.mem_filter.mpr ⟨hb, by simpa using hbid⟩, hst, hpb⟩
  · intro b hb
    exact h.bot_count b (List.mem_of_mem_filter hb)
  · exact h.pending_sorted

theorem inv_removeBot (s : AppState) (h : Inv s) : Inv (removeBot s) := by
  cases hlast : s.bots.getLast? with
  | none =>
    simp only [removeBot, hlast]
    exact h
  | some w =>
    have hwmem : w ∈ s.bots := List.mem_of_getLast?_eq_some hlast
    by_cases hw : w.status = .PROCESSING
    case neg =>
      simp only [removeBot, hlast, if_neg hw]
      refine inv_filter_bots s h w hwmem ?_
      intro o ho hcontra
      have hcount := h.bot_count w hwmem
      rw [if_neg hw, List.countP_eq_zero] at hcount
      exact hcount o ho (by simp [hcontra])
    case pos =>
      have hcount := h.bot_count w hwmem
      rw [if_pos hw] at hcount
      have hfindsome : (s.processingOrders.find? (fun o =>
          o.processedByBot == some w.name)).isSome := by
        rw [List.find?_isSome]
        have : 0 < s.processingOrders.countP (fun o =>
            o.processedByBot == some w.name) := by omega
        obtain ⟨o, ho, hP⟩ := List.countP_pos_iff.mp this
        exact ⟨o, ho, hP⟩
      obtain ⟨o, hfind⟩ := Option.isSome_iff_exists.mp hfindsome
      obtain ⟨hPo, l₁, l₂, hl, hl₁⟩ := find?_decomp hfind
      have hopb : o.processedByBot = some w.name := by simpa using hPo
      have honotmem : o.name ∉ (l₁ ++ l₂).map (fun x => x.name) := by
        have hpn := processing_names_nodup s h
        rw [hl, List.map_append, List.map_cons] at hpn
        have h3 := List.nodup_middle.mp hpn
        rw [← List.map_append] at h3
        exact (List.nodup_cons.mp h3).1
      have hpfilter : s.processingOrders.filter (fun x => x.name ≠ o.name)
          = l₁ ++ l₂ := by
        rw [hl, List.filter_append, List.filter_cons_of_neg (by simp)]
        have h1 : l₁.filter (fun x => x.name ≠ o.name) = l₁ :=
          List.filter_eq_self.mpr (fun x hx => by
            simp only [ne_eq, decide_eq_true_eq]
            intro hxn
            exact honotmem (List.mem_map.mpr ⟨x, List.mem_append.mpr (Or.inl hx), hxn⟩))
        have h2 : l₂.filter (fun x => x.name ≠ o.name) = l₂ :=
          List.filter_eq_self.mpr (fun x hx => by
            simp only [ne_eq, decide_eq_true_eq]
            intro hxn
            exact honotmem (List.mem_map.mpr ⟨x, List.mem_append.mpr (Or.inr hx), hxn⟩))
        rw [h1, h2]
      have hsplitcount : l₁.countP (fun x => x.processedByBot == some w.name) = 0 ∧
          l₂.countP (fun x => x.processedByBot == some w.name) = 0 := by
        rw [hl, List.countP_append, List.countP_cons, if_pos hPo] at hcount
        omega
      have hnoref : ∀ x ∈ l₁ ++ l₂, x.processedByBot ≠ some w.name := by
        intro x hx hcontra
        rcases List.mem_append.mp hx with h1 | h2
        · have := List.countP_eq_zero.mp hsplitcount.1 x h1
          exact this (by simp [hcontra])
        · have := List.countP_eq_zero.mp hsplitcount.2 x h2
          exact this (by simp [hcontra])
      simp only [removeBot, hlast, if_pos hw, hfind, hpfilter]
      have homem : o ∈ allOrders s := by
        simp [allOrders, List.mem_append, hl]
      -- the state after the requeue and before the bot is filtered out
      have hperm : List.Perm
          (allNames { s with
            pendingOrders := queueOrderList s.pendingOrders
              { o with processedByBot := none }
            processingOrders := l₁ ++ l₂ })
          (allNames s) := by
        simp only [allNames, allOrders, List.map_append]
        have hq := (queueOrderList_perm s.pendingOrders
          { o with processedByBot := none }).map (fun x => x.name)
        simp only [List.map_append, List.map_cons, List.map_nil] at hq
        refine List.Perm.trans ((hq.append_right _).append_right _) ?_
        rw [hl]
        simp only [List.map_append, List.map_cons]
        rw [← Multiset.coe_eq_coe]
        simp only [← Multiset.coe_add, ← Multiset.cons_coe, ← Multiset.singleton_add,
          Multiset.coe_nil]
        abel
      have hpmem : ∀ x ∈ queueOrderList s.pendingOrders
          { o with processedByBot := none },
          x ∈ s.pendingOrders ∨ x = { o with processedByBot := none } := by
        intro x hx
        have := (queueOrderList_perm s.pendingOrders
          { o with processedByBot := none }).mem_iff.mp hx
        rcases List.mem_append.mp this with h1 | h2
        · exact Or.inl h1
        · exact Or.inr (List.mem_singleton.mp h2)
      constructor
      · show (((s.bots.filter (fun b => b.id ≠ w.id)).map (fun b => b.id))).Nodup
        exact List.Nodup.sublist (List.Sublist.map _ (List.filter_sublist _))
          h.bot_ids_nodup
      · intro b hb
        exact h.bot_facts b (List.mem_of_mem_filter hb)
      · intro x hx
        have hcases : x ∈ allOrders s ∨ x = { o with processedByBot := none } := by
          simp only [allOrders, List.mem_append] at hx
          rcases hx with (hx1 | hx2) | hx3
          · rcases hpmem x hx1 with h1 | h2
            · exact Or.inl (by simp [allOrders, List.mem_append, h1])
            · exact Or.inr h2
          · exact Or.inl (by
              simp only [allOrders, List.mem_append, hl]
              rcases hx2 with h1 | h2
              · simp [h1]
              · simp [h2])
          · exact Or.inl (by simp [allOrders, List.mem_append, hx3])
        rcases hcases with hold | hnew
        · exact h.order_shape x hold
        · rw [hnew]
          rcases h.order_shape o homem with ⟨hv, i, h1, h2, h3⟩ | ⟨hv, i, h1, h2, h3⟩
          · exact Or.inl ⟨hv, i, h1, h2, h3⟩
          · exact Or.inr ⟨hv, i, h1, h2, h3⟩
      · exact hperm.nodup_iff.mpr h.names_nodup
      · intro i h1 h2
        exact hperm.mem_iff.mpr (h.normal_complete i h1 h2)
      · intro i h1 h2
        exact hperm.mem_iff.mpr (h.vip_complete i h1 h2)
      · intro x hx
        rcases hpmem x hx with h1 | h2
        · exact h.pending_clear x h1
        · rw [h2]
      · exact h.completed_assigned
      · intro x hx
        obtain ⟨b, hb, hst, hpb⟩ := h.processing_assigned x (by
          rw [hl]
          rcases List.mem_append.mp hx with h1 | h2
          · exact List.mem_append.mpr (Or.inl h1)
          · exact List.mem_append.mpr (Or.inr (List.mem_cons_of_mem _ h2)))
        have hbname : b.name ≠ w.name := by
          intro hcontra
          exact hnoref x hx (by rw [hpb, hcontra])
        have hbid : b.id ≠ w.id := by
          intro hcontra
          exact hbname (congrArg Bot.name
            (List.inj_on_of_nodup_map h.bot_ids_nodup hb hwmem hcontra))
        exact ⟨b, List.mem_filter.mpr ⟨hb, by simpa using hbid⟩, hst, hpb⟩
      · intro b hb
        have hbmem := List.mem_of_mem_filter hb
        have hbid : b.id ≠ w.id := by
          have := (List.mem_filter.mp hb).2
          simpa using this
        have hbname : b.name ≠ w.name := by
          intro hcontra
          exact hbid (botName_inj (((h.bot_facts b hbmem).2.2.symm.trans
            hcontra).trans ((h.bot_facts w hwmem).2.2)))
        show (l₁ ++ l₂).countP (fun x => x.processedByBot == some b.name)
          = if b.status = BotStatus.PROCESSING then 1 else 0
        have hocount : (o.processedByBot == some b.name) = false := by
          rw [hopb]
          simp [hbname.symm]
        have := h.bot_count b hbmem
        rw [hl, List.countP_append, List.countP_cons, hocount] at this
        rw [List.countP_append]
        simpa using this
      · show (queueOrderList s.pendingOrders
          { o with processedByBot := none }).Pairwise vipFirst
        exact queueOrderList_sorted h.pending_sorted

theorem setIdle_map_id (bname : String) (bots : List Bot) :
    ((bots.map (fun b => if b.name = bname then { b with status := BotStatus.IDLE }
        else b)).map (fun b => b.id)) = bots.map (fun b => b.id) := by
  induction bots with
  | nil => rfl
  | cons b bs ih =>
    simp only [List.map_cons]
    rw [ih]
    congr 1
    split <;> rfl

theorem inv_fireCompletion (s : AppState) (oname bname t : String) (h : Inv s) :
    Inv (fireCompletion s oname bname t) := by
  cases hex : extractOrder s.processingOrders oname with
  | none =>
    simp only [fireCompletion, hex]
    exact h
  | some pr =>
    obtain ⟨o, rest⟩ := pr
    by_cases hpb : o.processedByBot = some bname
    case neg =>
      simp only [fireCompletion, hex]
      rw [if_pos hpb]
      exact h
    case pos =>
      simp only [fireCompletion, hex]
      rw [if_neg (by simp [hpb])]
      apply inv_processOrders
      obtain ⟨l₁, l₂, hl, hrest, hn, hl₁⟩ := extractOrder_some hex
      subst hrest
      have homem : o ∈ s.processingOrders := by
        rw [hl]
        simp
      obtain ⟨bw, hbw, hbwst, hbwpb⟩ := h.processing_assigned o homem
      have hbwname : bw.name = bname := by
        rw [hpb] at hbwpb
        exact (Option.some_inj.mp hbwpb).symm
      have hcount := h.bot_count bw hbw
      rw [if_pos hbwst, hbwname] at hcount
      have hPo : (o.processedByBot == some bname) = true := by simp [hpb]
      have hsplitcount : l₁.countP (fun x => x.processedByBot == some bname) = 0 ∧
          l₂.countP (fun x => x.processedByBot == some bname) = 0 := by
        rw [hl, List.countP_append, List.countP_cons, if_pos hPo] at hcount
        omega
      have hnoref : ∀ x ∈ l₁ ++ l₂, x.processedByBot ≠ some bname := by
        intro x hx hcontra
        rcases List.mem_append.mp hx with h1 | h2
        · exact (List.countP_eq_zero.mp hsplitcount.1 x h1) (by simp [hcontra])
        · exact (List.countP_eq_zero.mp hsplitcount.2 x h2) (by simp [hcontra])
      have homem' : o ∈ allOrders s := by
        simp [allOrders, List.mem_append, homem]
      have hperm : List.Perm
          (allNames { s with
            processingOrders := l₁ ++ l₂
            completedOrders := s.completedOrders ++ [{ o with processedAt := some t }]
            bots := s.bots.map (fun b =>
              if b.name = bname then { b with status := BotStatus.IDLE } else b) })
          (allNames s) := by
        simp only [allNames, allOrders, List.map_append, hl, List.map_cons,
          List.map_nil]
        rw [← Multiset.coe_eq_coe]
        simp only [← Multiset.coe_add, ← Multiset.cons_coe, ← Multiset.singleton_add,
          Multiset.coe_nil]
        abel
      constructor
      · show (((s.bots.map (fun b =>
            if b.name = bname then { b with status := BotStatus.IDLE } else b)).map
            (fun b => b.id))).Nodup
        rw [setIdle_map_id]
        exact h.bot_ids_nodup
      · intro b hb
        obtain ⟨b0, hb0, rfl⟩ := List.mem_map.mp hb
        obtain ⟨h1, h2, h3⟩ := h.bot_facts b0 hb0
        refine ⟨?_, ?_, ?_⟩ <;> split <;> simpa
      · intro x hx
        have hcases : x ∈ allOrders s ∨ x = { o with processedAt := some t } := by
          simp only [allOrders, List.mem_append] at hx
          rcases hx with (hx1 | hx2) | hx3 | hx4
          · exact Or.inl (by simp [allOrders, List.mem_append, hx1])
          · exact Or.inl (by
              simp only [allOrders, List.mem_append, hl]
              rcases hx2 with h1 | h2
              · simp [h1]
              · simp [h2])
          · exact Or.inl (by simp [allOrders, List.mem_append, hx3])
          · exact Or.inr (List.mem_singleton.mp hx4)
        rcases hcases with hold | hnew
        · exact h.order_shape x hold
        · rw [hnew]
          rcases h.order_shape o homem' with ⟨hv, i, h1, h2, h3⟩ | ⟨hv, i, h1, h2, h3⟩
          · exact Or.inl ⟨hv, i, h1, h2, h3⟩
          · exact Or.inr ⟨hv, i, h1, h2, h3⟩
      · exact hperm.nodup_iff.mpr h.names_nodup
      · intro i h1 h2
        exact hperm.mem_iff.mpr (h.normal_complete i h1 h2)
      · intro i h1 h2
        exact hperm.mem_iff.mpr (h.vip_complete i h1 h2)
      · exact h.pending_clear
      · intro x hx
        rcases List.mem_append.mp hx with hold | hnew
        · exact h.completed_assigned x hold
        · rw [List.mem_singleton.mp hnew]
          show (o.processedByBot).isSome
          rw [hpb]
          rfl
      · intro x hx
        obtain ⟨bx, hbx, hbxst, hbxpb⟩ := h.processing_assigned x (by
          rw [hl]
          rcases List.mem_append.mp hx with h1 | h2
          · exact List.mem_append.mpr (Or.inl h1)
          · exact List.mem_append.mpr (Or.inr (List.mem_cons_of_mem _ h2)))
        have hbxname : bx.name ≠ bname := by
          intro hcontra
          exact hnoref x hx (by rw [hbxpb, hcontra])
        refine ⟨bx, List.mem_map.mpr ⟨bx, hbx, by rw [if_neg hbxname]⟩, hbxst, hbxpb⟩
      · intro b hb
        obtain ⟨b0, hb0, rfl⟩ := List.mem_map.mp hb
        by_cases hb0name : b0.name = bname
        · rw [if_pos hb0name]
          show (l₁ ++ l₂).countP (fun x => x.processedByBot == some b0.name)
            = if BotStatus.IDLE = BotStatus.PROCESSING then 1 else 0
          rw [if_neg (by exact fun hc => nomatch hc), List.countP_eq_zero]
          intro x hx hP
          rw [hb0name] at hP
          exact hnoref x hx (by simpa using hP)
        · rw [if_neg hb0name]
          have hocount : (o.processedByBot == some b0.name) = false := by
            rw [hpb]
            have hne : bname ≠ b0.name := Ne.symm hb0name
            simp [hne]
          have := h.bot_count b0 hb0
          rw [hl, List.countP_append, List.countP_cons, hocount] at this
          rw [List.countP_append]
          simpa using this
      · exact h.pending_sorted

theorem inv_step (s : AppState) (op : Op) (h : Inv s) : Inv (step s op) := by
  cases op with
  | addNormal t => exact inv_processOrders _ (inv_addNormalOrder s t h)
  | addVip t => exact inv_processOrders _ (inv_addVipOrder s t h)
  | addBot => exact inv_processOrders _ (inv_addBot s h)
  | removeBot => exact inv_processOrders _ (inv_removeBot s h)
  | fire o b t => exact inv_fireCompletion s o b t h

theorem inv_foldl : ∀ (ops : List Op) (s : AppState), Inv s →
    Inv (ops.foldl step s) := by
  intro ops
  induction ops with
  | nil => intro s h; exact h
  | cons op rest ih => intro s h; exact ih (step s op) (inv_step s op h)

theorem inv_run (ops : List Op) : Inv (run ops) :=
  inv_foldl ops initState inv_initState

theorem countP_name_map (l : List Order) (nm : String) :
    (l.map (fun o => o.name)).countP (fun x => x == nm)
      = l.countP (fun o => o.name == nm) := by
  rw [List.countP_map]
  rfl

/-! ### Invariant claims (C6, C8, C10) -/

/-- C6.  In every reachable state, every processing order is referenced by a
bot of the pool with status `PROCESSING`, every bot of the pool is referenced
by exactly one processing order when `PROCESSING` and by none when `IDLE`,
and distinct bots have distinct names — so the jobs referenced by busy bots
are pairwise distinct and coincide exactly with the set of assigned (i.e.
processing) orders. -/
theorem C6_no_double_assignment (ops : List Op) :
    (∀ o ∈ (run ops).processingOrders, ∃ b ∈ (run ops).bots,
      b.status = BotStatus.PROCESSING ∧ o.processedByBot = some b.name) ∧
    (∀ b ∈ (run ops).bots,
      (run ops).processingOrders.countP
        (fun o => o.processedByBot == some b.name)
        = if b.status = BotStatus.PROCESSING then 1 else 0) ∧
    (∀ b1 ∈ (run ops).bots, ∀ b2 ∈ (run ops).bots, b1.name = b2.name → b1 = b2) := by
  have h := inv_run ops
  exact ⟨h.processing_assigned, h.bot_count, bots_name_inj _ h⟩

/-- Witness for C6 after `addBot; addNormal`: the single busy bot `Bot-1` is
referenced by exactly one processing order. -/
theorem C6_no_double_assignment_witness :
    (run opsBusy1).processingOrders.countP
      (fun o => o.processedByBot == some "Bot-1") = 1 :=
  (C6_no_double_assignment opsBusy1).2.1
    { id := 1, name := "Bot-1", status := .PROCESSING } (by decide)

/-- C8.  In every reachable state, pending orders carry no
`processedByBot` reference while processing and completed orders always carry
one: the reference is set when the order is assigned, cleared when a worker
removal reverts it to pending, and retained on completed orders. -/
theorem C8_reference_iff_assigned (ops : List Op) :
    (∀ o ∈ (run ops).pendingOrders, o.processedByBot = none) ∧
    (∀ o ∈ (run ops).processingOrders, o.processedByBot.isSome) ∧
    (∀ o ∈ (run ops).completedOrders, o.processedByBot.isSome) := by
  have h := inv_run ops
  refine ⟨h.pending_clear, ?_, h.completed_assigned⟩
  intro o ho
  obtain ⟨b, -, -, hpb⟩ := h.processing_assigned o ho
  rw [hpb]
  rfl

/-- Witness for C8 in a state with one pending, one processing and one
completed order. -/
theorem C8_reference_iff_assigned_witness :
    ({ name := "O-3", time := "t3", isVip := false } : Order).processedByBot
        = none ∧
    ({ name := "O-2", time := "t2", isVip := false,
       processedByBot := some "Bot-1" } : Order).processedByBot.isSome ∧
    ({ name := "O-1", time := "t1", isVip := false,
       processedByBot := some "Bot-1",
       processedAt := some "t4" } : Order).processedByBot.isSome :=
  ⟨(C8_reference_iff_assigned [Op.addBot, Op.addNormal "t1", Op.addNormal "t2",
      Op.addNormal "t3", Op.fire "O-1" "Bot-1" "t4"]).1 _ (by decide),
   (C8_reference_iff_assigned [Op.addBot, Op.addNormal "t1", Op.addNormal "t2",
      Op.addNormal "t3", Op.fire "O-1" "Bot-1" "t4"]).2.1 _ (by decide),
   (C8_reference_iff_assigned [Op.addBot, Op.addNormal "t1", Op.addNormal "t2",
      Op.addNormal "t3", Op.fire "O-1" "Bot-1" "t4"]).2.2 _ (by decide)⟩

/-- C10.  In every reachable state, every order name the two counters have
handed out occurs exactly once across the three views (pending, processing,
completed) together, and every order in the three views carries one of the
handed-out names: no order is ever lost or duplicated. -/
theorem C10_conservation (ops : List Op) :
    (∀ nm ∈ canonicalNames (run ops).normalOrderCount (run ops).vipOrderCount,
      (run ops).pendingOrders.countP (fun o => o.name == nm)
        + (run ops).processingOrders.countP (fun o => o.name == nm)
        + (run ops).completedOrders.countP (fun o => o.name == nm) = 1) ∧
    (∀ o ∈ allOrders (run ops),
      o.name ∈ canonicalNames (run ops).normalOrderCount
        (run ops).vipOrderCount) := by
  have h := inv_run ops
  constructor
  · intro nm hnm
    have hmem : nm ∈ allNames (run ops) := by
      rw [canonicalNames] at hnm
      rcases List.mem_append.mp hnm with h1 | h2
      · obtain ⟨i, hi, rfl⟩ := List.mem_map.mp h1
        obtain ⟨j, hj, rfl⟩ := List.mem_range'.mp hi
        exact h.normal_complete _ (by omega) (by omega)
      · obtain ⟨i, hi, rfl⟩ := List.mem_map.mp h2
        obtain ⟨j, hj, rfl⟩ := List.mem_range'.mp hi
        exact h.vip_complete _ (by omega) (by omega)
    have hone : (allNames (run ops)).countP (fun x => x == nm) = 1 :=
      countP_eq_one_of_unique h.names_nodup hmem (by simp)
        (fun c hc hP => by simpa using hP)
    rw [allNames, allOrders, List.map_append, List.map_append,
      List.countP_append, List.countP_append, countP_name_map, countP_name_map,
      countP_name_map] at hone
    exact hone
  · intro o ho
    rw [canonicalNames]
    rcases h.order_shape o ho with ⟨-, i, h1, h2, h3⟩ | ⟨-, i, h1, h2, h3⟩
    · refine List.mem_append.mpr (Or.inl (List.mem_map.mpr ⟨i, ?_, h3.symm⟩))
      exact List.mem_range'.mpr ⟨i - 1, by omega, by omega⟩
    · refine List.mem_append.mpr (Or.inr (List.mem_map.mpr ⟨i, ?_, h3.symm⟩))
      exact List.mem_range'.mpr ⟨i - 1, by omega, by omega⟩

/-- Witness for C10: after one bot, three normal orders and one completion,
the name `O-2` occurs exactly once across the three views. -/
theorem C10_conservation_witness :
    (run [Op.addBot, Op.addNormal "t1", Op.addNormal "t2", Op.addNormal "t3",
      Op.fire "O-1" "Bot-1" "t4"]).pendingOrders.countP (fun o => o.name == "O-2")
      + (run [Op.addBot, Op.addNormal "t1", Op.addNormal "t2", Op.addNormal "t3",
          Op.fire "O-1" "Bot-1" "t4"]).processingOrders.countP
          (fun o => o.name == "O-2")
      + (run [Op.addBot, Op.addNormal "t1", Op.addNormal "t2", Op.addNormal "t3",
          Op.fire "O-1" "Bot-1" "t4"]).completedOrders.countP
          (fun o => o.name == "O-2") = 1 :=
  (C10_conservation [Op.addBot, Op.addNormal "t1", Op.addNormal "t2",
    Op.addNormal "t3", Op.fire "O-1" "Bot-1" "t4"]).1 "O-2" (by decide)

/-! ### Submission order of the pending queue (claim C2) -/

theorem lastVipIdx_all_false {l : List Order} (h : ∀ o ∈ l, o.isVip = false) :
    lastVipIdx l = none := by
  induction l with
  | nil => rfl
  | cons o os ih =>
    rw [lastVipIdx, ih (fun x hx => h x (List.mem_cons_of_mem _ hx))]
    rw [if_neg]
    simp [h o (List.mem_cons_self _ _)]

theorem lastVipIdx_append_all_false {l₁ l₂ : List Order}
    (h : ∀ o ∈ l₂, o.isVip = false) :
    lastVipIdx (l₁ ++ l₂) = lastVipIdx l₁ := by
  induction l₁ with
  | nil => rw [List.nil_append, lastVipIdx_all_false h]; rfl
  | cons o os ih => rw [List.cons_append, lastVipIdx, ih, lastVipIdx]

theorem lastVipIdx_all_true : ∀ {l : List Order}, (∀ o ∈ l, o.isVip = true) →
    l ≠ [] → lastVipIdx l = some (l.length - 1) := by
  intro l
  induction l with
  | nil => intro _ hne; exact absurd rfl hne
  | cons o os ih =>
    intro h _
    cases hos : os with
    | nil =>
      subst hos
      rw [lastVipIdx]
      show (match lastVipIdx [] with
        | some i => some (i + 1)
        | none => if o.isVip = true then some 0 else none) = some 0
      rw [show lastVipIdx ([] : List Order) = none from rfl]
      rw [if_pos (by simpa using h o (List.mem_cons_self _ _))]
    | cons y ys =>
      subst hos
      rw [lastVipIdx, ih (fun x hx => h x (List.mem_cons_of_mem _ hx))
        (fun hc => nomatch hc)]
      show some ((y :: ys).length - 1 + 1) = some ((o :: y :: ys).length - 1)
      simp

/-- Inserting a VIP order into a queue that is an all-VIP prefix followed by
an all-normal suffix puts it exactly between the two blocks. -/
theorem queueOrderList_vip_structured {PV PN : List Order} {v : Order}
    (hv : v.isVip = true) (hPV : ∀ o ∈ PV, o.isVip = true)
    (hPN : ∀ o ∈ PN, o.isVip = false) :
    queueOrderList (PV ++ PN) v = PV ++ v :: PN := by
  rw [queueOrderList, if_pos (by simpa using hv)]
  by_cases hPVnil : PV = []
  · subst hPVnil
    rw [List.nil_append, List.nil_append, lastVipIdx_all_false hPN]
  · rw [lastVipIdx_append_all_false hPN, lastVipIdx_all_true hPV hPVnil]
    show (PV ++ PN).take (PV.length - 1 + 1) ++ v :: (PV ++ PN).drop (PV.length - 1 + 1)
      = PV ++ v :: PN
    have hlen : PV.length - 1 + 1 = PV.length := by
      cases PV with
      | nil => exact absurd rfl hPVnil
      | cons x xs => simp
    rw [hlen, List.take_left, List.drop_left]

theorem subOrder_processOrders (s : AppState) (h : SubOrder s) :
    SubOrder (processOrders s) := by
  obtain ⟨lv, ln, PV, PN, hp, hlv, hln, hbv, hbn, hPV, hPN, hmv, hmn⟩ := h
  have hlenPV : PV.length = lv.length := by
    have := congrArg List.length hmv
    simpa using this
  rw [processOrders_eq]
  refine ⟨lv.drop (idleBots s).length, ln.drop ((idleBots s).length - lv.length),
    PV.drop (idleBots s).length, PN.drop ((idleBots s).length - PV.length), ?_,
    List.Pairwise.sublist (List.drop_sublist _ _) hlv,
    List.Pairwise.sublist (List.drop_sublist _ _) hln,
    fun i hi => hbv i (List.mem_of_mem_drop hi),
    fun i hi => hbn i (List.mem_of_mem_drop hi),
    fun o ho => hPV o (List.mem_of_mem_drop ho),
    fun o ho => hPN o (List.mem_of_mem_drop ho), ?_, ?_⟩
  · show (s.pendingOrders.drop (idleBots s).length) = _
    rw [hp, List.drop_append_eq_append_drop]
  · rw [List.map_drop, hmv, ← List.map_drop]
  · rw [List.map_drop, hmn, ← List.map_drop, hlenPV]

theorem subOrder_addNormalOrder (s : AppState) (t : String) (h : SubOrder s) :
    SubOrder (addNormalOrder s t) := by
  obtain ⟨lv, ln, PV, PN, hp, hlv, hln, hbv, hbn, hPV, hPN, hmv, hmn⟩ := h
  rw [addNormalOrder_eq]
  refine ⟨lv, ln ++ [s.normalOrderCount + 1], PV,
    PN ++ [createOrder (normalName (s.normalOrderCount + 1)) false t], ?_, hlv, ?_,
    ?_, ?_, hPV, ?_, hmv, ?_⟩
  · show s.pendingOrders ++ [createOrder (normalName (s.normalOrderCount + 1)) false t]
      = PV ++ (PN ++ [createOrder (normalName (s.normalOrderCount + 1)) false t])
    rw [hp, List.append_assoc]
  · rw [List.pairwise_append]
    refine ⟨hln, by simp, ?_⟩
    intro i hi j hj
    rw [List.mem_singleton.mp hj]
    have := hbn i hi
    omega
  · intro i hi
    have := hbv i hi
    exact ⟨this.1, this.2⟩
  · intro i hi
    rcases List.mem_append.mp hi with h1 | h2
    · have := hbn i h1
      show 1 ≤ i ∧ i ≤ s.normalOrderCount + 1
      omega
    · rw [List.mem_singleton.mp h2]
      show 1 ≤ s.normalOrderCount + 1 ∧ s.normalOrderCount + 1 ≤ s.normalOrderCount + 1
      omega
  · intro o ho
    rcases List.mem_append.mp ho with h1 | h2
    · exact hPN o h1
    · rw [List.mem_singleton.mp h2]
      rfl
  · rw [List.map_append, List.map_append, hmn]
    rfl

theorem subOrder_addVipOrder (s : AppState) (t : String) (h : SubOrder s) :
    SubOrder (addVipOrder s t) := by
  obtain ⟨lv, ln, PV, PN, hp, hlv, hln, hbv, hbn, hPV, hPN, hmv, hmn⟩ := h
  rw [addVipOrder_eq]
  have hq : queueOrderList s.pendingOrders
      (createOrder (vipName (s.vipOrderCount + 1)) true t)
      = PV ++ createOrder (vipName (s.vipOrderCount + 1)) true t :: PN := by
    rw [hp]
    exact queueOrderList_vip_structured rfl hPV hPN
  refine ⟨lv ++ [s.vipOrderCount + 1], ln,
    PV ++ [createOrder (vipName (s.vipOrderCount + 1)) true t], PN, ?_, ?_, hln,
    ?_, ?_, ?_, hPN, ?_, hmn⟩
  · show queueOrderList s.pendingOrders
      (createOrder (vipName (s.vipOrderCount + 1)) true t)
      = (PV ++ [createOrder (vipName (s.vipOrderCount + 1)) true t]) ++ PN
    rw [hq, List.append_assoc, List.singleton_append]
  · rw [List.pairwise_append]
    refine ⟨hlv, by simp, ?_⟩
    intro i hi j hj
    rw [List.mem_singleton.mp hj]
    have := hbv i hi
    omega
  · intro i hi
    rcases List.mem_append.mp hi with h1 | h2
    · have := hbv i h1
      show 1 ≤ i ∧ i ≤ s.vipOrderCount + 1
      omega
    · rw [List.mem_singleton.mp h2]
      show 1 ≤ s.vipOrderCount + 1 ∧ s.vipOrderCount + 1 ≤ s.vipOrderCount + 1
      omega
  · intro i hi
    have := hbn i hi
    exact ⟨this.1, this.2⟩
  · intro o ho
    rcases List.mem_append.mp ho with h1 | h2
    · exact hPV o h1
    · rw [List.mem_singleton.mp h2]
      rfl
  · rw [List.map_append, List.map_append, hmv]
    rfl

theorem subOrder_addBot (s : AppState) (h : SubOrder s) : SubOrder (addBot s) := by
  obtain ⟨lv, ln, PV, PN, hp, hlv, hln, hbv, hbn, hPV, hPN, hmv, hmn⟩ := h
  rw [addBot_eq]
  exact ⟨lv, ln, PV, PN, hp, hlv, hln, hbv, hbn, hPV, hPN, hmv, hmn⟩

theorem subOrder_removeBot_safe (s : AppState)
    (hsafe : ∀ b, s.bots.getLast? = some b → b.status ≠ .PROCESSING)
    (h : SubOrder s) : SubOrder (removeBot s) := by
  obtain ⟨lv, ln, PV, PN, hp, hlv, hln, hbv, hbn, hPV, hPN, hmv, hmn⟩ := h
  cases hlast : s.bots.getLast? with
  | none =>
    simp only [removeBot, hlast]
    exact ⟨lv, ln, PV, PN, hp, hlv, hln, hbv, hbn, hPV, hPN, hmv, hmn⟩
  | some w =>
    simp only [removeBot, hlast, if_neg (hsafe w hlast)]
    exact ⟨lv, ln, PV, PN, hp, hlv, hln, hbv, hbn, hPV, hPN, hmv, hmn⟩

theorem subOrder_fireCompletion (s : AppState) (oname bname t : String)
    (h : SubOrder s) : SubOrder (fireCompletion s oname bname t) := by
  cases hex : extractOrder s.processingOrders oname with
  | none =>
    simp only [fireCompletion, hex]
    exact h
  | some pr =>
    obtain ⟨o, rest⟩ := pr
    by_cases hpb : o.processedByBot = some bname
    case neg =>
      simp only [fireCompletion, hex]
      rw [if_pos hpb]
      exact h
    case pos =>
      simp only [fireCompletion, hex]
      rw [if_neg (by simp [hpb])]
      apply subOrder_processOrders
      obtain ⟨lv, ln, PV, PN, hp, hlv, hln, hbv, hbn, hPV, hPN, hmv, hmn⟩ := h
      exact ⟨lv, ln, PV, PN, hp, hlv, hln, hbv, hbn, hPV, hPN, hmv, hmn⟩

theorem subOrder_initState : SubOrder initState :=
  ⟨[], [], [], [], rfl, by simp, by simp, by simp, by simp, by simp, by simp,
    rfl, rfl⟩

theorem subOrder_foldl : ∀ (ops : List Op) (s : AppState),
    safeOps s ops = true → SubOrder s → SubOrder (ops.foldl step s) := by
  intro ops
  induction ops with
  | nil => intro s _ h; exact h
  | cons op rest ih =>
    intro s hsafe h
    cases op with
    | addNormal t =>
      simp only [safeOps, Bool.and_eq_true] at hsafe
      exact ih _ hsafe.2 (subOrder_processOrders _ (subOrder_addNormalOrder s t h))
    | addVip t =>
      simp only [safeOps, Bool.and_eq_true] at hsafe
      exact ih _ hsafe.2 (subOrder_processOrders _ (subOrder_addVipOrder s t h))
    | addBot =>
      simp only [safeOps, Bool.and_eq_true] at hsafe
      exact ih _ hsafe.2 (subOrder_processOrders _ (subOrder_addBot s h))
    | removeBot =>
      simp only [safeOps, Bool.and_eq_true] at hsafe
      refine ih _ hsafe.2 (subOrder_processOrders _ (subOrder_removeBot_safe s ?_ h))
      intro b hb hcontra
      have h1 := hsafe.1
      rw [hb] at h1
      simp [hcontra] at h1
    | fire o b t =>
      simp only [safeOps, Bool.and_eq_true] at hsafe
      exact ih _ hsafe.2 (subOrder_fireCompletion s o b t h)

/-- C2 counterexample.  On the trace `opsC2` — one bot, `VIP-1` submitted and
assigned, `VIP-2` submitted, then the busy bot removed — the pending queue
lists `VIP-2` before `VIP-1` although `VIP-1` was submitted first, so the
pending view is not in submission order. -/
theorem C2_counterexample :
    (run opsC2).pendingOrders.map (fun o => o.name) = [vipName 2, vipName 1] ∧
    ¬ submissionOrdered (run opsC2) := by
  constructor
  · rfl
  · rintro ⟨lv, ln, hlv, hln, hmap⟩
    rw [(show (run opsC2).pendingOrders.map (fun o => o.name)
      = [vipName 2, vipName 1] from rfl)] at hmap
    cases lv with
    | nil =>
      rw [List.map_nil, List.nil_append] at hmap
      cases ln with
      | nil => exact nomatch hmap
      | cons j jn =>
        rw [List.map_cons] at hmap
        injection hmap with h1 h2
        exact normalName_ne_vipName j 2 h1.symm
    | cons a lv' =>
      rw [List.map_cons, List.cons_append] at hmap
      injection hmap with h1 h2
      have ha : a = 2 := (vipName_inj h1).symm
      cases lv' with
      | nil =>
        rw [List.map_nil, List.nil_append] at h2
        cases ln with
        | nil => exact nomatch h2
        | cons j jn =>
          rw [List.map_cons] at h2
          injection h2 with h3 h4
          exact normalName_ne_vipName j 1 h3.symm
      | cons b lv'' =>
        rw [List.map_cons, List.cons_append] at h2
        injection h2 with h3 h4
        have hb : b = 1 := (vipName_inj h3).symm
        have hlt : a < b := (List.pairwise_cons.mp hlv).1 b (List.mem_cons_self _ _)
        omega

/-- C2 (amended).  In every reachable state the pending queue keeps all HIGH
(VIP) orders before all NORMAL orders; and for every interleaving of
submissions, bot additions, completion firings, and removals of idle bots
(no busy-bot removal), the pending queue lists the HIGH orders in submission
order followed by the NORMAL orders in submission order.  (When a busy bot is
removed, its requeued HIGH order re-enters at the tail of the HIGH block —
see the counterexample — so only the HIGH-before-NORMAL segregation survives
arbitrary removals.) -/
theorem C2_priority_order (ops : List Op) :
    (run ops).pendingOrders.Pairwise vipFirst ∧
    (safeOps initState ops = true → submissionOrdered (run ops)) := by
  constructor
  · exact (inv_run ops).pending_sorted
  · intro hsafe
    obtain ⟨lv, ln, PV, PN, hp, hlv, hln, -, -, -, -, hmv, hmn⟩ :=
      subOrder_foldl ops initState hsafe subOrder_initState
    refine ⟨lv, ln, hlv, hln, ?_⟩
    show List.map (fun o => o.name) (List.foldl step initState ops).pendingOrders
      = lv.map vipName ++ ln.map normalName
    rw [hp, List.map_append, hmv, hmn]

/-- Witness for C2 (amended) on a safe trace: normal, VIP, normal, VIP
submissions with no bot present leave the queue VIP-first in submission
order. -/
theorem C2_priority_order_witness :
    submissionOrdered (run [Op.addNormal "t1", Op.addVip "t2", Op.addNormal "t3",
      Op.addVip "t4"]) :=
  (C2_priority_order [Op.addNormal "t1", Op.addVip "t2", Op.addNormal "t3",
    Op.addVip "t4"]).2 (by decide)

end Dispatch
